import Mathlib

/-!
Verification of the HTML-aware translation pipeline of the railway translation
worker (src/gemini-translator.js).

JavaScript strings are modelled as lists of characters.  The nondeterministic
generative model is the only effect; it is modelled by passing the sequence of
its per-attempt outcomes (returned text, or thrown error message) as an
explicit argument.  Console logging and real-time sleeping are not modelled,
except that the retry loops record the list of requested backoff durations so
that the retry policy can be stated, and every function that can issue
generation requests additionally reports how many responses it consumed.
-/

set_option linter.unusedVariables false

deriving instance DecidableEq for Except

/-- Characters matched by the JavaScript regular-expression class \s and
removed by String.prototype.trim: ASCII whitespace, NBSP, Ogham space mark,
the U+2000 en/em space block, line and paragraph separators, narrow no-break
space, medium mathematical space, ideographic space and the BOM. -/
def jsSpace (c : Char) : Bool :=
  c.toNat = 9 || c.toNat = 10 || c.toNat = 11 || c.toNat = 12 || c.toNat = 13 ||
  c.toNat = 32 || c.toNat = 160 || c.toNat = 5760 ||
  (8192 ≤ c.toNat && c.toNat ≤ 8202) ||
  c.toNat = 8232 || c.toNat = 8233 || c.toNat = 8239 || c.toNat = 8287 ||
  c.toNat = 12288 || c.toNat = 65279

/-- Line terminators, the characters NOT matched by the JavaScript regex dot
without the s flag: LF, CR, LINE SEPARATOR, PARAGRAPH SEPARATOR. -/
def isLineTerm (c : Char) : Bool :=
  c.toNat = 10 || c.toNat = 13 || c.toNat = 8232 || c.toNat = 8233

/-- String.prototype.trim on both ends. -/
def jsTrim (s : List Char) : List Char :=
  ((s.dropWhile jsSpace).reverse.dropWhile jsSpace).reverse

/-- Case-insensitive prefix test: the pattern is given in lowercase and each
input character is lowercased before comparison (models the i regex flag for
the ASCII patterns the source uses). -/
def isPrefixCI : List Char → List Char → Bool
  | [], _ => true
  | _ :: _, [] => false
  | p :: ps, c :: cs => (c.toLower == p) && isPrefixCI ps cs

/-- Index of the first position where the (lowercase) pattern matches
case-insensitively; models the lazy [\s\S]*? search up to a backreferenced
closing tag, and case-insensitive indexOf. -/
def findSubCI (pat : List Char) : List Char → Option Nat
  | [] => if isPrefixCI pat [] then some 0 else none
  | c :: cs => if isPrefixCI pat (c :: cs) then some 0 else Option.map (· + 1) (findSubCI pat cs)

/-- Index of the first occurrence of an exact substring (String.indexOf ≥ 0). -/
def findSub (pat : List Char) : List Char → Option Nat
  | [] => if pat.isEmpty then some 0 else none
  | c :: cs => if pat.isPrefixOf (c :: cs) then some 0 else Option.map (· + 1) (findSub pat cs)

/-- Index of the last occurrence of an exact substring (String.lastIndexOf). -/
def lastSub (pat : List Char) : List Char → Option Nat
  | [] => if pat.isEmpty then some 0 else none
  | c :: cs =>
    match lastSub pat cs with
    | some j => some (j + 1)
    | none => if pat.isPrefixOf (c :: cs) then some 0 else none

/-- String.prototype.includes. -/
def containsSub (pat : List Char) (s : List Char) : Bool :=
  (findSub pat s).isSome

/-- The four non-translatable container element names of the extractor regex
alternation (script|style|code|pre), in the order the regex tries them. -/
def scriptChars : List Char := ['s', 'c', 'r', 'i', 'p', 't']

def styleChars : List Char := ['s', 't', 'y', 'l', 'e']

def codeChars : List Char := ['c', 'o', 'd', 'e']

def preChars : List Char := ['p', 'r', 'e']

def containerNames : List (List Char) := [scriptChars, styleChars, codeChars, preChars]

/-- Closing tag for a container name nm. -/
def closeTag (nm : List Char) : List Char := '<' :: '/' :: (nm ++ ['>'])

/-- One text segment as produced by extractTextSegments: the object
{start, end, text, isTranslatable} (end is renamed stop, a Lean keyword);
translatedText is the field later added by translateTextChunk, absent
(none) on freshly extracted segments. -/
structure Seg where
  start : Nat
  stop : Nat
  text : List Char
  isTranslatable : Bool
  translatedText : Option (List Char)
  deriving DecidableEq

/-- Total length consumed by the first regex alternative
<(script|style|code|pre)[^>]*>[\s\S]*?<\/\1> when it matches at the head of
the input: the container opening tag (the first alternation branch whose name
is a case-insensitive prefix, then any run of non-gt characters, then the
closing gt) followed lazily by content up to the first case-insensitive
occurrence of the backreferenced closing tag. -/
def matchContainer (s : List Char) : Option Nat :=
  match s with
  | [] => none
  | c :: rest =>
    if c = '<' then
      match containerNames.find? (fun nm => isPrefixCI nm rest) with
      | some nm =>
        let afterName := rest.drop nm.length
        let attrs := afterName.takeWhile (fun x => !(x == '>'))
        match afterName.drop attrs.length with
        | d :: content =>
          if d = '>' then
            match findSubCI (closeTag nm) content with
            | some j => some (nm.length + attrs.length + 2 + j + (nm.length + 3))
            | none => none
          else none
        | [] => none
      | none => none
    else none

/-- Total length consumed by the second regex alternative <[^>]+> when it
matches at the head of the input. -/
def matchTag (s : List Char) : Option Nat :=
  match s with
  | [] => none
  | c :: rest =>
    if c = '<' then
      let run := rest.takeWhile (fun x => !(x == '>'))
      if run.length = 0 then none
      else
        match rest.drop run.length with
        | d :: _ => if d = '>' then some (run.length + 2) else none
        | [] => none
    else none

/-- The exec loop of extractTextSegments.  fuel bounds the recursion (every
step consumes at least one character, so length + 1 fuel is enough); pos is
the current lastIndex.  At a lt character the three alternatives are tried in
order: container block (skipped), other tag (skipped), and if neither matches
the position cannot start a match, so the scan moves on by one character.  A
run of non-lt characters is the third alternative; it is pushed as a segment
exactly when it has a non-whitespace character (textContent.trim().length >
0), with the untrimmed run and its untrimmed offsets. -/
def extractGo : Nat → Nat → List Char → List Seg
  | 0, _, _ => []
  | _ + 1, _, [] => []
  | fuel + 1, pos, c :: rest =>
    if c = '<' then
      match matchContainer (c :: rest) with
      | some blockLen => extractGo fuel (pos + blockLen) ((c :: rest).drop blockLen)
      | none =>
        match matchTag (c :: rest) with
        | some tagLen => extractGo fuel (pos + tagLen) ((c :: rest).drop tagLen)
        | none => extractGo fuel (pos + 1) rest
    else
      let run := (c :: rest).takeWhile (fun x => !(x == '<'))
      if run.any (fun x => !(jsSpace x)) then
        { start := pos, stop := pos + run.length, text := run,
          isTranslatable := true, translatedText := none } ::
          extractGo fuel (pos + run.length) ((c :: rest).drop run.length)
      else
        extractGo fuel (pos + run.length) ((c :: rest).drop run.length)

/-- extractTextSegments from src/gemini-translator.js. -/
def extractTextSegments (html : List Char) : List Seg :=
  extractGo (html.length + 1) 0 html

/-- The same scan, recording the half-open intervals consumed by the first
regex alternative (container blocks) instead of the text segments. -/
def scanBlocksGo : Nat → Nat → List Char → List (Nat × Nat)
  | 0, _, _ => []
  | _ + 1, _, [] => []
  | fuel + 1, pos, c :: rest =>
    if c = '<' then
      match matchContainer (c :: rest) with
      | some blockLen =>
        (pos, pos + blockLen) :: scanBlocksGo fuel (pos + blockLen) ((c :: rest).drop blockLen)
      | none =>
        match matchTag (c :: rest) with
        | some tagLen => scanBlocksGo fuel (pos + tagLen) ((c :: rest).drop tagLen)
        | none => scanBlocksGo fuel (pos + 1) rest
    else
      let run := (c :: rest).takeWhile (fun x => !(x == '<'))
      scanBlocksGo fuel (pos + run.length) ((c :: rest).drop run.length)

/-- Container-block intervals skipped by the Segment Extractor on html. -/
def scanBlocks (html : List Char) : List (Nat × Nat) :=
  scanBlocksGo (html.length + 1) 0 html

/-- The greedy packing loop of createTextChunks: currentChunk and currentSize
are the loop state (currentSize always equals the combined text length of
currentChunk). -/
def chunksGo (maxChunkSize : Nat) : List Seg → List Seg → Nat → List (List Seg)
  | [], currentChunk, _ => if 0 < currentChunk.length then [currentChunk] else []
  | seg :: rest, currentChunk, currentSize =>
    if maxChunkSize < currentSize + seg.text.length ∧ 0 < currentChunk.length then
      currentChunk :: chunksGo maxChunkSize rest [seg] seg.text.length
    else
      chunksGo maxChunkSize rest (currentChunk ++ [seg]) (currentSize + seg.text.length)

/-- createTextChunks from src/gemini-translator.js (the source default budget
is 5000; the one call site passes 4000 explicitly, so the budget is an
ordinary argument here). -/
def createTextChunks (segments : List Seg) (maxChunkSize : Nat) : List (List Seg) :=
  chunksGo maxChunkSize segments [] 0

/-- Outcome of one model call: the response text, or a thrown error. -/
inductive Resp where
  | ok : List Char → Resp
  | err : List Char → Resp
  deriving DecidableEq

/-- Language codes and LANGUAGE_PATTERNS character tests, as predicates on a
single character (pattern.test succeeds iff some character satisfies it). -/
def ruCode : List Char := ['r', 'u']

def arCode : List Char := ['a', 'r']

def zhCode : List Char := ['z', 'h']

def jaCode : List Char := ['j', 'a']

def koCode : List Char := ['k', 'o']

def heCode : List Char := ['h', 'e']

def thCode : List Char := ['t', 'h']

def hiCode : List Char := ['h', 'i']

def elCode : List Char := ['e', 'l']

def viCode : List Char := ['v', 'i']

def enCode : List Char := ['e', 'n']

def esCode : List Char := ['e', 's']

/-- The nine strict-script languages (strictLanguageCheck in the source). -/
def strictLanguages : List (List Char) :=
  [ruCode, arCode, zhCode, jaCode, koCode, heCode, thCode, hiCode, elCode]

/-- LANGUAGE_PATTERNS: per-language character class.  The Latin-script
entries of the table use the regex dot, which matches any character except a
line terminator.  Languages outside the table have no pattern (undefined). -/
def languagePattern (language : List Char) : Option (Char → Bool) :=
  if language = ruCode then
    some (fun c => (0x410 ≤ c.toNat && c.toNat ≤ 0x44F) || c.toNat = 0x401 || c.toNat = 0x451)
  else if language = arCode then some (fun c => 0x600 ≤ c.toNat && c.toNat ≤ 0x6FF)
  else if language = zhCode then some (fun c => 0x4E00 ≤ c.toNat && c.toNat ≤ 0x9FFF)
  else if language = jaCode then
    some (fun c => (0x3040 ≤ c.toNat && c.toNat ≤ 0x309F) || (0x30A0 ≤ c.toNat && c.toNat ≤ 0x30FF))
  else if language = koCode then some (fun c => 0xAC00 ≤ c.toNat && c.toNat ≤ 0xD7AF)
  else if language = heCode then some (fun c => 0x590 ≤ c.toNat && c.toNat ≤ 0x5FF)
  else if language = thCode then some (fun c => 0xE00 ≤ c.toNat && c.toNat ≤ 0xE7F)
  else if language = hiCode then some (fun c => 0x900 ≤ c.toNat && c.toNat ≤ 0x97F)
  else if language = elCode then some (fun c => 0x370 ≤ c.toNat && c.toNat ≤ 0x3FF)
  else if language = viCode then some (fun c => 0xC0 ≤ c.toNat && c.toNat ≤ 0x1EF9)
  else if language ∈ ([['e', 's'], ['f', 'r'], ['d', 'e'], ['p', 't'], ['i', 't'],
      ['p', 'l'], ['n', 'l'], ['s', 'v'], ['t', 'r']] : List (List Char)) then
    some (fun c => !(isLineTerm c))
  else none

/-- pattern.test for a whole string: some character matches. -/
def patternTest (language : List Char) (s : List Char) : Bool :=
  match languagePattern language with
  | some p => s.any p
  | none => false

/-- JavaScript Map.set: replace the value of an existing key in place,
otherwise append; keys stay distinct and in insertion order. -/
def mapSet : List (Nat × List Char) → Nat → List Char → List (Nat × List Char)
  | [], k, v => [(k, v)]
  | (k0, v0) :: rest, k, v =>
    if k0 = k then (k, v) :: rest else (k0, v0) :: mapSet rest k v

/-- parseInt on a run of ASCII digits. -/
def digitsToNat (ds : List Char) : Nat :=
  ds.foldl (fun n c => 10 * n + (c.toNat - 48)) 0

/-- Matching one response line against ^\[(\d+)\]\s*(.*)$ : an opening
bracket, digits, a closing bracket, then greedily skipped whitespace; the
remainder is capture group 2 and must contain no line terminator (the regex
dot cannot cross one, and backtracking the greedy \s* cannot help because
line terminators are themselves whitespace). -/
def parseLine (line : List Char) : Option (Nat × List Char) :=
  match line with
  | [] => none
  | c :: rest =>
    if c = '[' then
      let ds := rest.takeWhile Char.isDigit
      if ds.length = 0 then none
      else
        match rest.drop ds.length with
        | d :: tail =>
          if d = ']' then
            let t := tail.dropWhile jsSpace
            if t.all (fun x => !(isLineTerm x)) then some (digitsToNat ds, t) else none
          else none
        | [] => none
    else none

/-- Parsing a model response into the translatedMap: trim the response text,
split on newlines, and Map.set each line that matches the line pattern. -/
def parseResponse (resp : List Char) : List (Nat × List Char) :=
  ((jsTrim resp).splitOn '\n').foldl
    (fun m line =>
      match parseLine line with
      | some (i, t) => mapSet m i t
      | none => m)
    []

/-- The returned segment list of an accepted chunk:
textSegments.map((seg, i) => ({...seg, translatedText: translatedMap.get(i) || seg.text})).
A missing index, or one parsed as the empty string (falsy), falls back to the
segment's original text. -/
def annotate (segs : List Seg) (m : List (Nat × List Char)) : List Seg :=
  segs.enum.map (fun p =>
    { p.2 with
      translatedText := some
        (match m.lookup p.1 with
         | some t => if t.isEmpty then p.2.text else t
         | none => p.2.text) })

/-- The error message thrown when the retry loop of translateTextChunk ends
without an accepted response: Failed to translate chunk (chunkIndex+1). -/
def chunkFailMsg (chunkIndex : Nat) : List Char :=
  ['F', 'a', 'i', 'l', 'e', 'd', ' ', 't', 'o', ' ', 't', 'r', 'a', 'n', 's', 'l', 'a', 't',
   'e', ' ', 'c', 'h', 'u', 'n', 'k', ' '] ++ Nat.toDigits 10 (chunkIndex + 1)

/-- Result of running translateTextChunk on a scripted list of model
responses: the returned (or thrown) value, the number of generation requests
issued, and the sequence of backoff sleeps requested. -/
structure ChunkRun where
  result : Except (List Char) (List Seg)
  requests : Nat
  sleeps : List Nat
  deriving DecidableEq

/-- Does the chunk-level acceptance reject this parsed map?  The coverage
floor translatedMap.size < textSegments.length * 0.8 is an exact float
comparison in the source; for every segment count below 2^51 it coincides
with the rational comparison 5 * size < 4 * count used here. -/
def coverageReject (m : List (Nat × List Char)) (segCount : Nat) : Bool :=
  5 * m.length < 4 * segCount

/-- The strict-script rejection: for a strict language, no parsed value
contains a character of the language's pattern. -/
def scriptReject (language : List Char) (m : List (Nat × List Char)) : Bool :=
  decide (language ∈ strictLanguages) &&
    !((m.map Prod.snd).any (fun t => patternTest language t))

/-- The retry loop of translateTextChunk.  attempt counts from 1 to
maxRetries = 3; each loop iteration consumes the next scripted response.  A
thrown error on the last attempt is rethrown as-is (no sleep); any other
failed attempt sleeps 2000 * attempt and retries; when the loop ends without
success the chunk-naming error is thrown.  An empty response script behaves
like an ended loop. -/
def translateChunkGo (segs : List Seg) (language : List Char) (chunkIndex : Nat) :
    Nat → List Resp → ChunkRun
  | _, [] => ⟨Except.error (chunkFailMsg chunkIndex), 0, []⟩
  | attempt, r :: rs =>
    if 3 < attempt then ⟨Except.error (chunkFailMsg chunkIndex), 0, []⟩
    else
      match r with
      | Resp.err e =>
        if attempt = 3 then ⟨Except.error e, 1, []⟩
        else
          let next := translateChunkGo segs language chunkIndex (attempt + 1) rs
          ⟨next.result, next.requests + 1, 2000 * attempt :: next.sleeps⟩
      | Resp.ok text =>
        let m := parseResponse text
        if coverageReject m segs.length then
          let next := translateChunkGo segs language chunkIndex (attempt + 1) rs
          ⟨next.result, next.requests + 1, 2000 * attempt :: next.sleeps⟩
        else if scriptReject language m then
          let next := translateChunkGo segs language chunkIndex (attempt + 1) rs
          ⟨next.result, next.requests + 1, 2000 * attempt :: next.sleeps⟩
        else
          ⟨Except.ok (annotate segs m), 1, []⟩

/-- translateTextChunk from src/gemini-translator.js, on a scripted sequence
of model responses. -/
def translateTextChunk (segs : List Seg) (language : List Char) (chunkIndex : Nat)
    (responses : List Resp) : ChunkRun :=
  translateChunkGo segs language chunkIndex 1 responses

/-- Truthiness of the translatedText field: present and non-empty. -/
def segTruthy (t : Option (List Char)) : Bool :=
  match t with
  | some s => !s.isEmpty
  | none => false

/-- One replacement step of reassembleHTML:
result.slice(0, start) + translatedText + result.slice(end), executed only
when translatedText is truthy. -/
def replaceStep (result : List Char) (segment : Seg) : List Char :=
  match segment.translatedText with
  | some t =>
    if t.isEmpty then result
    else result.take segment.start ++ t ++ result.drop segment.stop
  | none => result

/-- reassembleHTML from src/gemini-translator.js: stable-sort the segments by
descending start offset ([...segments].sort((a,b) => b.start - a.start)) and
replace from the highest offset to the lowest. -/
def reassembleHTML (originalHTML : List Char) (translatedSegments : List Seg) : List Char :=
  (List.insertionSort (fun a b => b.start ≤ a.start) translatedSegments).foldl
    replaceStep originalHTML

/-- The lowercase structural probe of the validators:
html.toLowerCase().includes("<html") && html.toLowerCase().includes("</html>"). -/
def hasHTML (s : List Char) : Bool :=
  containsSub ['<', 'h', 't', 'm', 'l'] (s.map Char.toLower) &&
  containsSub ['<', '/', 'h', 't', 'm', 'l', '>'] (s.map Char.toLower)

/-- isValidTranslation from src/gemini-translator.js: the three
ValidationResult checks — HTML structure, the 200-character floor, and for
strict-script languages the presence of a pattern character (a strict
language missing from the pattern table would skip check 3; all nine have
patterns).  The originalHtml argument is only logged by the source. -/
def isValidTranslation (html : List Char) (language : List Char)
    (originalHtml : List Char) : Bool :=
  if !(hasHTML html) then false
  else if html.length < 200 then false
  else if language ∈ strictLanguages then
    match languagePattern language with
    | some p => html.any p
    | none => true
  else true

/-- Cleanup of a direct-translation response: strip a leading markdown fence
(```html then ```), strip a trailing fence, drop prose before the first
DOCTYPE when it is not at position 0, drop text after the last closing html
tag, and trim. -/
def doctypeAt (s : List Char) : Bool :=
  if isPrefixCI ['<', '!', 'd', 'o', 'c', 't', 'y', 'p', 'e'] s then
    let rest := s.drop 9
    let ws := rest.takeWhile jsSpace
    if ws.length = 0 then false
    else isPrefixCI ['h', 't', 'm', 'l', '>'] (rest.drop ws.length)
  else false

/-- Index of the first position where <!DOCTYPE\s+html> matches (String.search). -/
def findIdxFrom (p : List Char → Bool) : List Char → Option Nat
  | [] => if p [] then some 0 else none
  | c :: cs => if p (c :: cs) then some 0 else Option.map (· + 1) (findIdxFrom p cs)

def fenceChars : List Char := List.replicate 3 (Char.ofNat 96)

def fenceHtmlChars : List Char := List.replicate 3 (Char.ofNat 96) ++ ['h', 't', 'm', 'l']

def closeHtmlChars : List Char := ['<', '/', 'h', 't', 'm', 'l', '>']

def cleanupDirect (raw : List Char) : List Char :=
  let s1 := if isPrefixCI fenceHtmlChars raw then (raw.drop 7).dropWhile jsSpace else raw
  let s2 := if isPrefixCI fenceChars s1 then (s1.drop 3).dropWhile jsSpace else s1
  let s3 :=
    if fenceChars.reverse.isPrefixOf s2.reverse then
      ((s2.reverse.drop 3).dropWhile jsSpace).reverse
    else s2
  let s4 :=
    match findIdxFrom doctypeAt s3 with
    | some i => if 0 < i then s3.drop i else s3
    | none => s3
  let s5 :=
    match lastSub closeHtmlChars (s4.map Char.toLower) with
    | some i => if 0 < i then s4.take (i + 7) else s4
    | none => s4
  jsTrim s5

def missingStructureMsg : List Char :=
  ['M', 'i', 's', 's', 'i', 'n', 'g', ' ', 'H', 'T', 'M', 'L', ' ',
   's', 't', 'r', 'u', 'c', 't', 'u', 'r', 'e']

def directFailMsg : List Char :=
  ['D', 'i', 'r', 'e', 'c', 't', ' ', 't', 'r', 'a', 'n', 's', 'l', 'a', 't', 'i', 'o', 'n',
   ' ', 'f', 'a', 'i', 'l', 'e', 'd']

/-- Result of a whole-document translation run: returned or thrown value,
plus the number of generation requests issued. -/
structure RunOutcome where
  result : Except (List Char) (List Char)
  requests : Nat
  deriving DecidableEq

/-- The retry loop of translateHTMLDirect: per attempt, clean the response
and require the HTML-structure probe; a validation failure is a thrown error
caught by the same catch as a model error, so on the last attempt it is
rethrown and otherwise the loop sleeps and retries (sleeps are not recorded
here; no claim concerns them). -/
def translateDirectGo : Nat → List Resp → RunOutcome
  | _, [] => ⟨Except.error directFailMsg, 0⟩
  | attempt, r :: rs =>
    if 3 < attempt then ⟨Except.error directFailMsg, 0⟩
    else
      match r with
      | Resp.err e =>
        if attempt = 3 then ⟨Except.error e, 1⟩
        else
          let next := translateDirectGo (attempt + 1) rs
          ⟨next.result, next.requests + 1⟩
      | Resp.ok raw =>
        let cleaned := cleanupDirect raw
        if hasHTML cleaned then ⟨Except.ok cleaned, 1⟩
        else if attempt = 3 then ⟨Except.error missingStructureMsg, 1⟩
        else
          let next := translateDirectGo (attempt + 1) rs
          ⟨next.result, next.requests + 1⟩

/-- translateHTMLDirect from src/gemini-translator.js (the prompt text and
the vertical hint only steer the model and are not modelled). -/
def translateHTMLDirect (html : List Char) (language : List Char)
    (responses : List Resp) : RunOutcome :=
  translateDirectGo 1 responses

def corruptedMsg : List Char :=
  ['C', 'h', 'u', 'n', 'k', 'e', 'd', ' ', 't', 'r', 'a', 'n', 's', 'l', 'a', 't', 'i', 'o',
   'n', ' ', 'c', 'o', 'r', 'r', 'u', 'p', 't', 'e', 'd', ' ', 'H', 'T', 'M', 'L', ' ',
   's', 't', 'r', 'u', 'c', 't', 'u', 'r', 'e']

def noLanguageCharsMsg (language : List Char) : List Char :=
  ['N', 'o', ' '] ++ language ++
  [' ', 'c', 'h', 'a', 'r', 'a', 'c', 't', 'e', 'r', 's', ' ', 'f', 'o', 'u', 'n', 'd']

def apiKeyMsg : List Char :=
  ['G', 'E', 'M', 'I', 'N', 'I', '_', 'A', 'P', 'I', '_', 'K', 'E', 'Y', ' ',
   'n', 'o', 't', ' ', 'c', 'o', 'n', 'f', 'i', 'g', 'u', 'r', 'e', 'd']

/-- Sequential per-chunk translation (step 3 of the chunked path): chunk i
uses the i-th scripted response list; a chunk failure propagates. -/
def translateChunksGo (language : List Char) :
    List (List Seg) → Nat → List (List Resp) → Except (List Char) (List Seg) × Nat
  | [], _, _ => (Except.ok [], 0)
  | chunk :: rest, i, scripts =>
    let run := translateChunkGo chunk language i 1 (scripts.headD [])
    match run.result with
    | Except.error e => (Except.error e, run.requests)
    | Except.ok segs =>
      let next := translateChunksGo language rest (i + 1) scripts.tail
      match next.1 with
      | Except.error e => (Except.error e, run.requests + next.2)
      | Except.ok more => (Except.ok (segs ++ more), run.requests + next.2)

/-- translateHTML from src/gemini-translator.js: configuration check, the
"en" no-op fast path, the 15000-character threshold choosing the direct or
chunked strategy, and on the chunked path extraction, chunking with budget
4000, sequential chunk translation, reassembly, and the two final checks
(HTML structure, and strict-script character presence). -/
def translateHTML (apiKeyPresent : Bool) (html : List Char) (language : List Char)
    (directResponses : List Resp) (chunkScripts : List (List Resp)) : RunOutcome :=
  if !apiKeyPresent then ⟨Except.error apiKeyMsg, 0⟩
  else if language = enCode then ⟨Except.ok html, 0⟩
  else if html.length ≤ 15000 then translateHTMLDirect html language directResponses
  else if (extractTextSegments html).length = 0 then ⟨Except.ok html, 0⟩
  else
    match translateChunksGo language (createTextChunks (extractTextSegments html) 4000)
        0 chunkScripts with
    | (Except.error e, reqs) => ⟨Except.error e, reqs⟩
    | (Except.ok allSegs, reqs) =>
      if !(hasHTML (reassembleHTML html allSegs)) then ⟨Except.error corruptedMsg, reqs⟩
      else if language ∈ strictLanguages then
        if patternTest language (reassembleHTML html allSegs) then
          ⟨Except.ok (reassembleHTML html allSegs), reqs⟩
        else ⟨Except.error (noLanguageCharsMsg language), reqs⟩
      else ⟨Except.ok (reassembleHTML html allSegs), reqs⟩

theorem isPrefixCI_length {p l : List Char} (h : isPrefixCI p l = true) :
    p.length ≤ l.length := by
  induction p generalizing l with
  | nil => exact Nat.zero_le _
  | cons a ps ih =>
    cases l with
    | nil => simp [isPrefixCI] at h
    | cons c cs =>
      simp only [isPrefixCI, Bool.and_eq_true] at h
      simpa using Nat.succ_le_succ (ih h.2)

theorem findSubCI_bound {pat l : List Char} {j : Nat} (h : findSubCI pat l = some j) :
    j + pat.length ≤ l.length := by
  induction l generalizing j with
  | nil =>
    simp only [findSubCI] at h
    split at h
    · cases h
      next hp => exact Nat.le_trans (by simpa using isPrefixCI_length hp) (Nat.le_refl _)
    · cases h
  | cons c cs ih =>
    simp only [findSubCI] at h
    split at h
    · cases h
      next hp => simpa using isPrefixCI_length hp
    · rcases Option.map_eq_some'.1 h with ⟨j0, hj0, rfl⟩
      have := ih hj0
      simp only [List.length_cons]
      omega

theorem take_length_takeWhile {α : Type} (p : α → Bool) (l : List α) :
    l.take (l.takeWhile p).length = l.takeWhile p := by
  calc l.take (l.takeWhile p).length
      = (l.takeWhile p ++ l.dropWhile p).take (l.takeWhile p).length := by
        rw [List.takeWhile_append_dropWhile]
    _ = l.takeWhile p := List.take_left' rfl

theorem length_takeWhile_le {α : Type} (p : α → Bool) (l : List α) :
    (l.takeWhile p).length ≤ l.length := by
  have h := congrArg List.length (List.takeWhile_append_dropWhile (p := p) (l := l))
  simp only [List.length_append] at h
  omega

theorem matchContainer_bounds {s : List Char} {k : Nat} (h : matchContainer s = some k) :
    1 ≤ k ∧ k ≤ s.length := by
  cases s with
  | nil => simp [matchContainer] at h
  | cons c rest =>
    simp only [matchContainer] at h
    split at h
    · split at h
      · rename_i hc nm hf
        split at h
        · rename_i d content hdrop
          split at h
          · split at h
            · rename_i hd j hfs
              cases h
              have hnm : isPrefixCI nm rest = true :=
                List.find?_some (p := fun nm => isPrefixCI nm rest) hf
              have hnmlen : nm.length ≤ rest.length := isPrefixCI_length hnm
              have hjb := findSubCI_bound hfs
              have h1 := length_takeWhile_le (fun x => !(x == '>')) (rest.drop nm.length)
              have h2 := congrArg List.length hdrop
              simp only [List.length_drop, List.length_cons] at h1 h2 ⊢
              have hclose : (closeTag nm).length = nm.length + 3 := by simp [closeTag]
              rw [hclose] at hjb
              constructor
              · omega
              · omega
            · cases h
          · cases h
        · cases h
      · cases h
    · cases h

theorem matchTag_bounds {s : List Char} {k : Nat} (h : matchTag s = some k) :
    1 ≤ k ∧ k ≤ s.length := by
  cases s with
  | nil => simp [matchTag] at h
  | cons c rest =>
    simp only [matchTag] at h
    split at h
    · split at h
      · cases h
      · split at h
        · rename_i hc hrun d tail hdrop
          split at h
          · cases h
            have h2 := congrArg List.length hdrop
            have h1 := length_takeWhile_le (fun x => !(x == '>')) rest
            simp only [List.length_drop, List.length_cons] at h1 h2 ⊢
            omega
          · cases h
        · cases h
    · cases h

theorem extractGo_nil (f pos : Nat) : extractGo f pos [] = [] := by
  cases f <;> simp [extractGo]

theorem scanBlocksGo_nil (f pos : Nat) : scanBlocksGo f pos [] = [] := by
  cases f <;> simp [scanBlocksGo]

theorem length_pos_of_head_ne_lt {c : Char} {l : List Char} (h : ¬ c = '<') :
    1 ≤ ((c :: l).takeWhile (fun x => !(x == '<'))).length := by
  rw [List.takeWhile_cons_of_pos (by simpa using h)]
  simp

theorem extractGo_fuel : ∀ (f1 f2 pos : Nat) (s : List Char),
    s.length < f1 → s.length < f2 → extractGo f1 pos s = extractGo f2 pos s := by
  intro f1
  induction f1 with
  | zero => intro f2 pos s h1 h2; exact absurd h1 (Nat.not_lt_zero _)
  | succ g ih =>
    intro f2 pos s h1 h2
    cases f2 with
    | zero => exact absurd h2 (Nat.not_lt_zero _)
    | succ m =>
      cases s with
      | nil => simp [extractGo]
      | cons c rest =>
        simp only [List.length_cons] at h1 h2
        simp only [extractGo]
        by_cases hc : c = '<'
        · simp only [if_pos hc]
          cases hmc : matchContainer (c :: rest) with
          | some blockLen =>
            have hb := matchContainer_bounds hmc
            simp only [List.length_cons] at hb
            apply ih
            · simp only [List.length_drop, List.length_cons]; omega
            · simp only [List.length_drop, List.length_cons]; omega
          | none =>
            cases hmt : matchTag (c :: rest) with
            | some tagLen =>
              have hb := matchTag_bounds hmt
              simp only [List.length_cons] at hb
              apply ih
              · simp only [List.length_drop, List.length_cons]; omega
              · simp only [List.length_drop, List.length_cons]; omega
            | none =>
              apply ih <;> omega
        · simp only [if_neg hc]
          have hr := length_pos_of_head_ne_lt (l := rest) hc
          have hrl := length_takeWhile_le (fun x => !(x == '<')) (c :: rest)
          simp only [List.length_cons] at hrl
          by_cases ha : ((c :: rest).takeWhile (fun x => !(x == '<'))).any
              (fun x => !(jsSpace x)) = true
          · simp only [ha, if_true]
            congr 1
            apply ih
            · simp only [List.length_drop, List.length_cons]; omega
            · simp only [List.length_drop, List.length_cons]; omega
          · rw [Bool.not_eq_true] at ha
            simp only [ha, Bool.false_eq_true, if_false]
            apply ih
            · simp only [List.length_drop, List.length_cons]; omega
            · simp only [List.length_drop, List.length_cons]; omega

/-! ### The extractor invariant: offsets are exact slices, ascending and
non-overlapping -/

def GoodFrom (pos lb : Nat) (s : List Char) : List Seg → Prop
  | [] => True
  | seg :: rest =>
    lb ≤ seg.start ∧ seg.start < seg.stop ∧ seg.stop ≤ pos + s.length ∧
    (s.drop (seg.start - pos)).take (seg.stop - seg.start) = seg.text ∧
    GoodFrom pos seg.stop s rest

instance instDecGoodFrom : (pos lb : Nat) → (s : List Char) → (L : List Seg) →
    Decidable (GoodFrom pos lb s L)
  | _, _, _, [] => Decidable.isTrue True.intro
  | pos, lb, s, seg :: rest =>
    haveI : Decidable (GoodFrom pos seg.stop s rest) := instDecGoodFrom pos seg.stop s rest
    inferInstanceAs (Decidable (_ ∧ _ ∧ _ ∧ _ ∧ _))

theorem GoodFrom_mono {pos lb lb2 : Nat} {s : List Char} {L : List Seg}
    (h : GoodFrom pos lb s L) (hle : lb2 ≤ lb) : GoodFrom pos lb2 s L := by
  cases L with
  | nil => trivial
  | cons seg rest => exact ⟨Nat.le_trans hle h.1, h.2⟩

theorem GoodFrom_mem {pos lb : Nat} {s : List Char} {L : List Seg}
    (h : GoodFrom pos lb s L) :
    ∀ x ∈ L, lb ≤ x.start ∧ x.start < x.stop ∧ x.stop ≤ pos + s.length ∧
      (s.drop (x.start - pos)).take (x.stop - x.start) = x.text := by
  induction L generalizing lb with
  | nil => intro x hx; cases hx
  | cons seg rest ih =>
    intro x hx
    rcases List.mem_cons.1 hx with rfl | hx2
    · exact ⟨h.1, h.2.1, h.2.2.1, h.2.2.2.1⟩
    · have hr := ih (GoodFrom_mono h.2.2.2.2 (Nat.le_refl _)) x hx2
      have : lb ≤ seg.stop := Nat.le_trans h.1 (Nat.le_of_lt h.2.1)
      exact ⟨Nat.le_trans this hr.1, hr.2⟩

theorem GoodFrom_transport {pos k lb : Nat} {s : List Char} {L : List Seg}
    (h : GoodFrom (pos + k) lb (s.drop k) L) (hk : k ≤ s.length) (hlb : pos + k ≤ lb) :
    GoodFrom pos lb s L := by
  induction L generalizing lb with
  | nil => trivial
  | cons seg rest ih =>
    obtain ⟨h1, h2, h3, h4, h5⟩ := h
    refine ⟨h1, h2, ?_, ?_, ?_⟩
    · simp only [List.length_drop] at h3
      omega
    · have harith : k + (seg.start - (pos + k)) = seg.start - pos := by omega
      rw [List.drop_drop, harith] at h4
      exact h4
    · exact ih h5 (by omega)

theorem extractGo_good : ∀ (f pos : Nat) (s : List Char),
    GoodFrom pos pos s (extractGo f pos s) := by
  intro f
  induction f with
  | zero => intro pos s; simp only [extractGo]; trivial
  | succ g ih =>
    intro pos s
    cases s with
    | nil => simp only [extractGo]; trivial
    | cons c rest =>
      simp only [extractGo]
      by_cases hc : c = '<'
      · simp only [if_pos hc]
        cases hmc : matchContainer (c :: rest) with
        | some blockLen =>
          have hb := matchContainer_bounds hmc
          exact GoodFrom_mono
            (GoodFrom_transport (ih (pos + blockLen) ((c :: rest).drop blockLen)) hb.2
              (Nat.le_refl _)) (Nat.le_add_right _ _)
        | none =>
          cases hmt : matchTag (c :: rest) with
          | some tagLen =>
            have hb := matchTag_bounds hmt
            exact GoodFrom_mono
              (GoodFrom_transport (ih (pos + tagLen) ((c :: rest).drop tagLen)) hb.2
                (Nat.le_refl _)) (Nat.le_add_right _ _)
          | none =>
            have h1 : (1 : Nat) ≤ (c :: rest).length := by simp
            have := ih (pos + 1) rest
            have hr : rest = (c :: rest).drop 1 := rfl
            rw [hr] at this
            exact GoodFrom_mono (GoodFrom_transport this h1 (Nat.le_refl _))
              (Nat.le_add_right _ _)
      · simp only [if_neg hc]
        have hrpos := length_pos_of_head_ne_lt (l := rest) hc
        have hrle := length_takeWhile_le (fun x => !(x == '<')) (c :: rest)
        have htail : GoodFrom pos (pos + ((c :: rest).takeWhile (fun x => !(x == '<'))).length)
            (c :: rest)
            (extractGo g (pos + ((c :: rest).takeWhile (fun x => !(x == '<'))).length)
              ((c :: rest).drop ((c :: rest).takeWhile (fun x => !(x == '<'))).length)) :=
          GoodFrom_transport (ih _ _) hrle (Nat.le_refl _)
        by_cases ha : ((c :: rest).takeWhile (fun x => !(x == '<'))).any
            (fun x => !(jsSpace x)) = true
        · simp only [ha, if_true]
          refine ⟨Nat.le_refl _, ?_, ?_, ?_, htail⟩
          · dsimp only; omega
          · dsimp only; simp only [List.length_cons] at hrle ⊢; omega
          · simp only [Nat.sub_self, List.drop_zero, Nat.add_sub_cancel_left]
            exact take_length_takeWhile _ _
        · rw [Bool.not_eq_true] at ha
          simp only [ha, Bool.false_eq_true, if_false]
          exact GoodFrom_mono htail (Nat.le_add_right _ _)

theorem GoodFrom_pairwise {pos lb : Nat} {s : List Char} {L : List Seg}
    (h : GoodFrom pos lb s L) : L.Pairwise (fun a b => a.stop ≤ b.start) := by
  induction L generalizing lb with
  | nil => exact List.Pairwise.nil
  | cons seg rest ih =>
    refine List.Pairwise.cons ?_ (ih h.2.2.2.2)
    intro b hb
    exact (GoodFrom_mem h.2.2.2.2 b hb).1

theorem GoodFrom_pairwise_lt {pos lb : Nat} {s : List Char} {L : List Seg}
    (h : GoodFrom pos lb s L) : L.Pairwise (fun a b => a.start < b.start) := by
  induction L generalizing lb with
  | nil => exact List.Pairwise.nil
  | cons seg rest ih =>
    refine List.Pairwise.cons ?_ (ih h.2.2.2.2)
    intro b hb
    exact Nat.lt_of_lt_of_le h.2.1 (GoodFrom_mem h.2.2.2.2 b hb).1

/-! ### Reassembly: descending-offset replacement equals gap-and-replacement
assembly -/

/-- The text a segment effectively contributes under the truthiness test of
reassembleHTML: a present non-empty translation, otherwise (absent or empty,
both falsy) the original slice is left in place. -/
def effRepl (s : Seg) : List Char :=
  match s.translatedText with
  | some t => if t.isEmpty then s.text else t
  | none => s.text

/-- The text a segment contributes according to the claim read literally:
the translated text whenever it is present. -/
def claimRepl (s : Seg) : List Char :=
  match s.translatedText with
  | some t => t
  | none => s.text

/-- Replacement-at-offsets description of the reassembled document: the
original up to each segment start, then that segment's replacement, with the
gap after the previous segment preserved. -/
def assembled (orig : List Char) : Nat → List Seg → List Char
  | p, [] => orig.drop p
  | p, seg :: rest =>
    (orig.drop p).take (seg.start - p) ++ effRepl seg ++ assembled orig seg.stop rest

/-- The same assembly with the claim's literal replacement. -/
def assembledSpec (orig : List Char) : Nat → List Seg → List Char
  | p, [] => orig.drop p
  | p, seg :: rest =>
    (orig.drop p).take (seg.start - p) ++ claimRepl seg ++ assembledSpec orig seg.stop rest

theorem take_append_left {α : Type} {l1 : List α} (l2 : List α) {n : Nat}
    (h : n ≤ l1.length) : (l1 ++ l2).take n = l1.take n := by
  rw [List.take_append_eq_append_take]
  have : n - l1.length = 0 := by omega
  simp [this]

theorem drop_append_left {α : Type} {l1 : List α} (l2 : List α) {n : Nat}
    (h : l1.length = n) : (l1 ++ l2).drop n = l2 :=
  List.drop_left' h

theorem foldr_replace (orig : List Char) : ∀ (L : List Seg) (p : Nat),
    GoodFrom 0 p orig L →
    L.foldr (fun s res => replaceStep res s) orig = orig.take p ++ assembled orig p L := by
  intro L
  induction L with
  | nil => intro p h; simp [assembled]
  | cons seg rest ih =>
    intro p h
    obtain ⟨h1, h2, h3, h4, h5⟩ := h
    simp only [Nat.zero_add] at h3
    simp only [Nat.sub_zero] at h4
    have hinner := ih seg.stop h5
    have htake_start : orig.take seg.start = orig.take p ++ (orig.drop p).take (seg.start - p) := by
      have h0 := List.take_add orig p (seg.start - p)
      have he1 : p + (seg.start - p) = seg.start := by omega
      rw [he1] at h0
      exact h0
    have htake_stop : orig.take seg.stop = orig.take seg.start ++ seg.text := by
      have h0 := List.take_add orig seg.start (seg.stop - seg.start)
      have he1 : seg.start + (seg.stop - seg.start) = seg.stop := by omega
      rw [he1] at h0
      rw [h0, h4]
    simp only [List.foldr_cons, hinner, assembled]
    have hlen_take : (orig.take seg.stop).length = seg.stop := by
      simp [List.length_take]; omega
    cases htt : seg.translatedText with
    | none =>
      simp only [replaceStep, htt, effRepl]
      rw [htake_stop, htake_start]
      simp [List.append_assoc]
    | some t =>
      by_cases hemp : t.isEmpty
      · simp only [replaceStep, htt, effRepl, hemp, if_true]
        rw [htake_stop, htake_start]
        simp [List.append_assoc]
      · simp only [replaceStep, htt, effRepl, hemp, if_false, Bool.false_eq_true]
        rw [take_append_left _ (by omega : seg.start ≤ (orig.take seg.stop).length)]
        rw [List.take_take, Nat.min_eq_left (Nat.le_of_lt h2)]
        rw [drop_append_left _ hlen_take]
        rw [htake_start]
        simp [List.append_assoc]

theorem orderedInsert_append_of_not {r : Seg → Seg → Prop} [DecidableRel r] (a : Seg) :
    ∀ (l : List Seg), (∀ b ∈ l, ¬ r a b) → List.orderedInsert r a l = l ++ [a] := by
  intro l
  induction l with
  | nil => intro h; rfl
  | cons b rest ih =>
    intro h
    rw [List.orderedInsert, if_neg (h b (List.mem_cons_self _ _))]
    rw [ih (fun x hx => h x (List.mem_cons_of_mem _ hx))]
    rfl

theorem insertionSort_desc_eq_reverse :
    ∀ (L : List Seg), L.Pairwise (fun a b => a.start < b.start) →
    List.insertionSort (fun a b => b.start ≤ a.start) L = L.reverse := by
  intro L
  induction L with
  | nil => intro h; rfl
  | cons seg rest ih =>
    intro h
    rw [List.insertionSort, ih (List.Pairwise.sublist (List.sublist_cons_self _ _) h)]
    rw [orderedInsert_append_of_not]
    · simp
    · intro b hb
      have := (List.pairwise_cons.1 h).1 b (List.mem_reverse.1 hb)
      omega

/-- Reassembly as the source computes it equals the offset-based description,
for any segment list with exact ascending non-overlapping offsets. -/
theorem reassembleHTML_eq_assembled {orig : List Char} {L : List Seg}
    (h : GoodFrom 0 0 orig L) : reassembleHTML orig L = assembled orig 0 L := by
  unfold reassembleHTML
  rw [insertionSort_desc_eq_reverse L (GoodFrom_pairwise_lt h)]
  rw [List.foldl_reverse]
  rw [foldr_replace orig L 0 h]
  simp

theorem assembled_identity {orig : List Char} : ∀ (L : List Seg) (p : Nat),
    GoodFrom 0 p orig L → (∀ s ∈ L, effRepl s = s.text) →
    assembled orig p L = orig.drop p := by
  intro L
  induction L with
  | nil => intro p h1 h2; rfl
  | cons seg rest ih =>
    intro p h1 h2
    obtain ⟨ha, hb, hc, hd, he⟩ := h1
    simp only [Nat.zero_add] at hc
    simp only [Nat.sub_zero] at hd
    simp only [assembled]
    rw [h2 seg (List.mem_cons_self _ _)]
    rw [ih seg.stop he (fun s hs => h2 s (List.mem_cons_of_mem _ hs))]
    have hdd : (orig.drop p).drop (seg.start - p) = orig.drop seg.start := by
      rw [List.drop_drop]
      congr 1
      omega
    have hsplit1 : orig.drop p = (orig.drop p).take (seg.start - p) ++ orig.drop seg.start := by
      rw [← hdd]
      exact (List.take_append_drop _ _).symm
    have hdd2 : (orig.drop seg.start).drop (seg.stop - seg.start) = orig.drop seg.stop := by
      rw [List.drop_drop]
      congr 1
      omega
    have hsplit2 : orig.drop seg.start = seg.text ++ orig.drop seg.stop := by
      conv_lhs => rw [← List.take_append_drop (seg.stop - seg.start) (orig.drop seg.start)]
      rw [hd, hdd2]
    conv_rhs => rw [hsplit1, hsplit2]
    rw [← List.append_assoc]

theorem GoodFrom_map_translated {pos lb : Nat} {s : List Char} {L : List Seg}
    (h : GoodFrom pos lb s L) :
    GoodFrom pos lb s (L.map (fun x => { x with translatedText := some x.text })) := by
  induction L generalizing lb with
  | nil => trivial
  | cons seg rest ih => exact ⟨h.1, h.2.1, h.2.2.1, h.2.2.2.1, ih h.2.2.2.2⟩

/-- Claim C1: for every HTML input, every segment produced by
extractTextSegments satisfies html[start:end] == text, the segments appear in
strictly ascending, non-overlapping offset order, and replacing each recorded
range with its own text through reassembleHTML reproduces the original
document exactly. -/
theorem claim1_extractor_partition (html : List Char) :
    (∀ seg ∈ extractTextSegments html,
      (html.drop seg.start).take (seg.stop - seg.start) = seg.text ∧
      seg.start < seg.stop ∧ seg.stop ≤ html.length) ∧
    (extractTextSegments html).Pairwise (fun a b => a.stop ≤ b.start) ∧
    reassembleHTML html
      ((extractTextSegments html).map (fun x => { x with translatedText := some x.text })) =
      html := by
  have hg : GoodFrom 0 0 html (extractTextSegments html) :=
    extractGo_good (html.length + 1) 0 html
  refine ⟨?_, GoodFrom_pairwise hg, ?_⟩
  · intro seg hs
    have hm := GoodFrom_mem hg seg hs
    exact ⟨by simpa using hm.2.2.2, hm.2.1, by simpa using hm.2.2.1⟩
  · have hmap := GoodFrom_map_translated hg
    rw [reassembleHTML_eq_assembled hmap]
    rw [assembled_identity _ 0 hmap ?_]
    · simp
    · intro x hx
      rcases List.mem_map.1 hx with ⟨y, hy, rfl⟩
      simp [effRepl]

def c1html : List Char := ['<', 'p', '>', 'H', 'i', '<', '/', 'p', '>']

theorem claim1_witness :
    (c1html.drop 3).take 2 = ['H', 'i'] ∧ (3 : Nat) < 5 ∧ (5 : Nat) ≤ c1html.length := by
  have h := (claim1_extractor_partition c1html).1
    { start := 3, stop := 5, text := ['H', 'i'], isTranslatable := true, translatedText := none }
    (by decide)
  exact ⟨h.1, h.2.1, h.2.2⟩

def c2seg : Seg :=
  { start := 0, stop := 2, text := ['a', 'b'], isTranslatable := true, translatedText := some [] }

/-- Claim C2 counterexample: a segment whose translatedText is present but
empty satisfies all of the claim's hypotheses (exact slice, ascending
non-overlapping offsets), yet reassembleHTML keeps the original text instead
of replacing the range with the (empty) translated text, because the source
tests JavaScript truthiness (if (segment.translatedText)) and the empty
string is falsy. -/
theorem claim2_counterexample :
    GoodFrom 0 0 ['a', 'b'] [c2seg] ∧
    reassembleHTML ['a', 'b'] [c2seg] = ['a', 'b'] ∧
    assembledSpec ['a', 'b'] 0 [c2seg] = [] ∧
    ¬ reassembleHTML ['a', 'b'] [c2seg] = assembledSpec ['a', 'b'] 0 [c2seg] := by
  refine ⟨by decide, by decide, by decide, by decide⟩

/-- Claim C2 (amended): for every original document and segment list with
exact, strictly ascending, non-overlapping offsets, reassembleHTML replaces
each range with the segment's translated text when that text is present AND
non-empty, and keeps the original text when it is absent or empty (the
assembled description); in particular if every translatedText equals the
original text the output is byte-identical to the input. -/
theorem claim2_reassemble_amended (orig : List Char) (L : List Seg)
    (h : GoodFrom 0 0 orig L) :
    reassembleHTML orig L = assembled orig 0 L ∧
    ((∀ s ∈ L, s.translatedText = some s.text) → reassembleHTML orig L = orig) := by
  refine ⟨reassembleHTML_eq_assembled h, ?_⟩
  intro hid
  rw [reassembleHTML_eq_assembled h, assembled_identity L 0 h ?_]
  · simp
  · intro s hs
    simp [effRepl, hid s hs]

theorem claim2_witness :
    reassembleHTML c1html [⟨3, 5, ['H', 'i'], true, some ['X', 'Y']⟩] =
      ['<', 'p', '>', 'X', 'Y', '<', '/', 'p', '>'] := by
  have h := (claim2_reassemble_amended c1html
    [⟨3, 5, ['H', 'i'], true, some ['X', 'Y']⟩] (by decide)).1
  rw [h]
  decide

/-! ### Chunk builder invariants -/

/-- Combined text length of a chunk. -/
def chunkTextLen (c : List Seg) : Nat := (c.map (fun s => s.text.length)).sum

theorem chunkTextLen_append (a b : List Seg) :
    chunkTextLen (a ++ b) = chunkTextLen a + chunkTextLen b := by
  simp [chunkTextLen]

theorem chunksGo_join (ms : Nat) : ∀ (rest cur : List Seg) (size : Nat),
    (chunksGo ms rest cur size).flatten = cur ++ rest := by
  intro rest
  induction rest with
  | nil =>
    intro cur size
    by_cases h : 0 < cur.length
    · simp [chunksGo, h]
    · have : cur = [] := List.length_eq_zero.1 (by omega)
      simp [chunksGo, this]
  | cons seg r2 ih =>
    intro cur size
    simp only [chunksGo]
    split
    · simp [ih]
    · simp [ih]

theorem chunksGo_nonempty (ms : Nat) : ∀ (rest cur : List Seg) (size : Nat),
    ∀ c ∈ chunksGo ms rest cur size, c ≠ [] := by
  intro rest
  induction rest with
  | nil =>
    intro cur size c hc
    by_cases h : 0 < cur.length
    · simp only [chunksGo, if_pos h, List.mem_singleton] at hc
      subst hc
      exact List.ne_nil_of_length_pos h
    · simp [chunksGo, h] at hc
  | cons seg r2 ih =>
    intro cur size c hc
    simp only [chunksGo] at hc
    split at hc
    · rcases List.mem_cons.1 hc with rfl | hc2
      · next hg => exact List.ne_nil_of_length_pos hg.2
      · exact ih _ _ c hc2
    · exact ih _ _ c hc

theorem chunksGo_bounded (ms : Nat) : ∀ (rest cur : List Seg) (size : Nat),
    size = chunkTextLen cur → (1 < cur.length → size ≤ ms) →
    ∀ c ∈ chunksGo ms rest cur size, 1 < c.length → chunkTextLen c ≤ ms := by
  intro rest
  induction rest with
  | nil =>
    intro cur size hsz hinv c hc hlen
    by_cases h : 0 < cur.length
    · simp only [chunksGo, if_pos h, List.mem_singleton] at hc
      subst hc
      rw [← hsz]
      exact hinv hlen
    · simp [chunksGo, h] at hc
  | cons seg r2 ih =>
    intro cur size hsz hinv c hc hlen
    simp only [chunksGo] at hc
    split at hc
    · next hg =>
      rcases List.mem_cons.1 hc with rfl | hc2
      · rw [← hsz]; exact hinv hlen
      · refine ih [seg] seg.text.length (by simp [chunkTextLen]) (by simp) c hc2 hlen
    · next hg =>
      refine ih (cur ++ [seg]) (size + seg.text.length) ?_ ?_ c hc hlen
      · rw [chunkTextLen_append, hsz]
        simp [chunkTextLen]
      · intro hl
        simp only [List.length_append, List.length_singleton] at hl
        have hcur : 0 < cur.length := by omega
        by_cases hms : ms < size + seg.text.length
        · exact absurd ⟨hms, hcur⟩ hg
        · omega

theorem chunksGo_single (ms : Nat) (seg : Seg) (h : ms < seg.text.length) :
    ∀ (rest : List Seg), [seg] ∈ chunksGo ms rest [seg] seg.text.length := by
  intro rest
  cases rest with
  | nil => simp [chunksGo]
  | cons s2 r2 =>
    simp only [chunksGo]
    rw [if_pos ⟨by omega, by simp⟩]
    exact List.mem_cons_self _ _

theorem chunksGo_alone (ms : Nat) : ∀ (rest cur : List Seg) (size : Nat),
    size = chunkTextLen cur →
    ∀ seg ∈ rest, ms < seg.text.length → [seg] ∈ chunksGo ms rest cur size := by
  intro rest
  induction rest with
  | nil => intro cur size hsz seg hs; cases hs
  | cons s2 r2 ih =>
    intro cur size hsz seg hs hlen
    rcases List.mem_cons.1 hs with rfl | hs2
    · by_cases hcur : 0 < cur.length
      · simp only [chunksGo]
        rw [if_pos ⟨by omega, hcur⟩]
        exact List.mem_cons_of_mem _ (chunksGo_single ms seg hlen r2)
      · have hc0 : cur = [] := List.length_eq_zero.1 (by omega)
        subst hc0
        have hs0 : size = 0 := by simpa [chunkTextLen] using hsz
        subst hs0
        simp only [chunksGo]
        rw [if_neg (by simp)]
        simpa using chunksGo_single ms seg hlen r2
    · simp only [chunksGo]
      split
      · exact List.mem_cons_of_mem _ (ih [s2] s2.text.length (by simp [chunkTextLen]) seg hs2 hlen)
      · exact ih (cur ++ [s2]) (size + s2.text.length)
          (by rw [chunkTextLen_append, hsz]; simp [chunkTextLen]) seg hs2 hlen

/-- Claim C4: for every segment sequence and every budget, createTextChunks
returns non-empty chunks whose concatenation in chunk order is exactly the
input sequence; every chunk with more than one segment has combined text
length at most the budget; and a segment longer than the budget is placed
alone in its own chunk. -/
theorem claim4_chunk_partition (segments : List Seg) (maxChunkSize : Nat) :
    (createTextChunks segments maxChunkSize).flatten = segments ∧
    (∀ c ∈ createTextChunks segments maxChunkSize, c ≠ []) ∧
    (∀ c ∈ createTextChunks segments maxChunkSize,
      1 < c.length → chunkTextLen c ≤ maxChunkSize) ∧
    (∀ seg ∈ segments, maxChunkSize < seg.text.length →
      [seg] ∈ createTextChunks segments maxChunkSize) := by
  refine ⟨?_, ?_, ?_, ?_⟩
  · simpa using chunksGo_join maxChunkSize segments [] 0
  · exact chunksGo_nonempty maxChunkSize segments [] 0
  · exact chunksGo_bounded maxChunkSize segments [] 0 (by simp [chunkTextLen]) (by simp)
  · exact chunksGo_alone maxChunkSize segments [] 0 (by simp [chunkTextLen])

def c4big : Seg :=
  { start := 0, stop := 5, text := ['a', 'b', 'c', 'd', 'e'], isTranslatable := true,
    translatedText := none }

theorem claim4_witness : [c4big] ∈ createTextChunks [c4big] 4 :=
  (claim4_chunk_partition [c4big] 4).2.2.2 c4big (by decide) (by decide)

/-! ### Chunk translator: acceptance, fallback, retry and terminal errors -/

theorem annotate_length (segs : List Seg) (m : List (Nat × List Char)) :
    (annotate segs m).length = segs.length := by
  simp [annotate]

theorem annotate_get (segs : List Seg) (m : List (Nat × List Char)) (i : Nat)
    (hi : i < segs.length) (ho : i < (annotate segs m).length) :
    (annotate segs m).get ⟨i, ho⟩ =
      { segs.get ⟨i, hi⟩ with
        translatedText := some
          (match m.lookup i with
           | some t => if t.isEmpty then (segs.get ⟨i, hi⟩).text else t
           | none => (segs.get ⟨i, hi⟩).text) } := by
  simp [annotate, List.get_eq_getElem, List.getElem_map, List.getElem_enum]

theorem translateChunkGo_ok {segs : List Seg} {language : List Char} {chunkIndex : Nat} :
    ∀ (attempt : Nat) (rs : List Resp) (out : List Seg),
    (translateChunkGo segs language chunkIndex attempt rs).result = Except.ok out →
    ∃ text, Resp.ok text ∈ rs ∧
      coverageReject (parseResponse text) segs.length = false ∧
      scriptReject language (parseResponse text) = false ∧
      out = annotate segs (parseResponse text) := by
  intro attempt rs
  induction rs generalizing attempt with
  | nil => intro out h; simp [translateChunkGo] at h
  | cons r rest ih =>
    intro out h
    cases r with
    | err e =>
      simp only [translateChunkGo] at h
      split at h
      · simp at h
      · split at h
        · simp at h
        · dsimp only at h
          rcases ih (attempt + 1) out h with ⟨text, hmem, hc, hs, hout⟩
          exact ⟨text, List.mem_cons_of_mem _ hmem, hc, hs, hout⟩
    | ok text =>
      simp only [translateChunkGo] at h
      split at h
      · simp at h
      · split at h
        · dsimp only at h
          rcases ih (attempt + 1) out h with ⟨t2, hmem, hc, hs, hout⟩
          exact ⟨t2, List.mem_cons_of_mem _ hmem, hc, hs, hout⟩
        · split at h
          · dsimp only at h
            rcases ih (attempt + 1) out h with ⟨t2, hmem, hc, hs, hout⟩
            exact ⟨t2, List.mem_cons_of_mem _ hmem, hc, hs, hout⟩
          · rename_i hcov hscr
            dsimp only at h
            cases h
            refine ⟨text, List.mem_cons_self _ _, ?_, ?_, rfl⟩
            · simpa using hcov
            · simpa using hscr

/-- A scripted response on which one attempt fails: a thrown error, or a
returned text rejected by the coverage or strict-script check. -/
def respFails (segs : List Seg) (language : List Char) (r : Resp) : Bool :=
  match r with
  | Resp.err _ => true
  | Resp.ok text =>
    coverageReject (parseResponse text) segs.length || scriptReject language (parseResponse text)

/-- The terminal error after three failed attempts: the chunk-naming
exhaustion message when the third attempt was a rejected response, but the
rethrown model error when the third attempt threw. -/
def terminalErr (chunkIndex : Nat) (r : Resp) : List Char :=
  match r with
  | Resp.err e => e
  | Resp.ok _ => chunkFailMsg chunkIndex

theorem translateChunkGo_past (segs : List Seg) (language : List Char) (chunkIndex : Nat)
    (rs : List Resp) : translateChunkGo segs language chunkIndex 4 rs =
      ⟨Except.error (chunkFailMsg chunkIndex), 0, []⟩ := by
  cases rs with
  | nil => rfl
  | cons r rest => simp [translateChunkGo]

theorem translateChunkGo_step_fail (segs : List Seg) (language : List Char) (chunkIndex : Nat)
    (attempt : Nat) (h3 : attempt < 3) (r : Resp) (hf : respFails segs language r = true)
    (rs : List Resp) :
    translateChunkGo segs language chunkIndex attempt (r :: rs) =
      ⟨(translateChunkGo segs language chunkIndex (attempt + 1) rs).result,
       (translateChunkGo segs language chunkIndex (attempt + 1) rs).requests + 1,
       2000 * attempt :: (translateChunkGo segs language chunkIndex (attempt + 1) rs).sleeps⟩ := by
  cases r with
  | err e =>
    simp only [translateChunkGo]
    rw [if_neg (by omega), if_neg (by omega)]
  | ok text =>
    simp only [respFails, Bool.or_eq_true] at hf
    simp only [translateChunkGo]
    rw [if_neg (by omega)]
    rcases hf with hc | hs
    · rw [if_pos hc]
    · by_cases hc : coverageReject (parseResponse text) segs.length = true
      · rw [if_pos hc]
      · rw [if_neg hc, if_pos hs]

theorem translateChunkGo_last_fail (segs : List Seg) (language : List Char) (chunkIndex : Nat)
    (r : Resp) (hf : respFails segs language r = true) (rs : List Resp) :
    translateChunkGo segs language chunkIndex 3 (r :: rs) =
      ⟨Except.error (terminalErr chunkIndex r), 1,
       match r with
       | Resp.err _ => []
       | Resp.ok _ => [6000]⟩ := by
  cases r with
  | err e => simp [translateChunkGo, terminalErr]
  | ok text =>
    simp only [respFails, Bool.or_eq_true] at hf
    simp only [translateChunkGo, terminalErr]
    rw [if_neg (by omega)]
    have hpast := translateChunkGo_past segs language chunkIndex rs
    rcases hf with hc | hs
    · rw [if_pos hc, hpast]
    · by_cases hc : coverageReject (parseResponse text) segs.length = true
      · rw [if_pos hc, hpast]
      · rw [if_neg hc, if_pos hs, hpast]

/-- Claim C7 counterexample: when all three attempts throw, the terminal
error raised by translateTextChunk is the model's own error message, which
does not name the chunk (the chunk-naming exhaustion message is thrown only
when the loop ends by rejection). -/
theorem claim7_counterexample :
    translateTextChunk
        [⟨0, 2, ['H', 'i'], true, none⟩] esCode 0
        [Resp.err ['b', 'o', 'o', 'm'], Resp.err ['b', 'o', 'o', 'm'],
         Resp.err ['b', 'o', 'o', 'm']] =
      ⟨Except.error ['b', 'o', 'o', 'm'], 3, [2000, 4000]⟩ ∧
    containsSub ['c', 'h', 'u', 'n', 'k'] ['b', 'o', 'o', 'm'] = false ∧
    ¬ (['b', 'o', 'o', 'm'] : List Char) = chunkFailMsg 0 := by
  refine ⟨by decide, by decide, by decide⟩

/-- Claim C7 (amended): translateTextChunk succeeds only on a consumed
response whose parsed map has size at least 80 percent of the segment count
and, for a strict-script language, some parsed value matching the language
pattern; each failed non-final attempt sleeps 2000 times the attempt number
and retries; and after three failed attempts the terminal error is the
chunk-naming exhaustion message if the final attempt was a rejection, or the
rethrown model error if the final attempt threw. -/
theorem claim7_retry_amended (segs : List Seg) (language : List Char) (chunkIndex : Nat) :
    (∀ (rs : List Resp) (out : List Seg),
      (translateTextChunk segs language chunkIndex rs).result = Except.ok out →
      ∃ text, Resp.ok text ∈ rs ∧
        4 * segs.length ≤ 5 * (parseResponse text).length ∧
        (language ∈ strictLanguages →
          ((parseResponse text).map Prod.snd).any (fun t => patternTest language t) = true)) ∧
    (∀ (r1 r2 r3 : Resp) (rest : List Resp),
      respFails segs language r1 = true → respFails segs language r2 = true →
      respFails segs language r3 = true →
      translateTextChunk segs language chunkIndex (r1 :: r2 :: r3 :: rest) =
        ⟨Except.error (terminalErr chunkIndex r3), 3,
         2000 :: 4000 ::
           (match r3 with
            | Resp.err _ => []
            | Resp.ok _ => [6000])⟩) := by
  constructor
  · intro rs out h
    rcases translateChunkGo_ok 1 rs out h with ⟨text, hmem, hc, hs, hout⟩
    refine ⟨text, hmem, ?_, ?_⟩
    · simp only [coverageReject, decide_eq_false_iff_not, Nat.not_lt] at hc
      exact hc
    · intro hlang
      simp only [scriptReject, Bool.and_eq_false_iff] at hs
      rcases hs with hs1 | hs2
      · simp [hlang] at hs1
      · simpa using hs2
  · intro r1 r2 r3 rest hf1 hf2 hf3
    unfold translateTextChunk
    rw [translateChunkGo_step_fail segs language chunkIndex 1 (by omega) r1 hf1]
    rw [translateChunkGo_step_fail segs language chunkIndex 2 (by omega) r2 hf2]
    rw [translateChunkGo_last_fail segs language chunkIndex r3 hf3]
    cases r3 <;> norm_num

theorem claim7_witness :
    translateTextChunk [⟨0, 2, ['H', 'i'], true, none⟩] ruCode 0
        [Resp.ok ['z'], Resp.ok ['z'], Resp.err ['b', 'o', 'o', 'm']] =
      ⟨Except.error ['b', 'o', 'o', 'm'], 3, [2000, 4000]⟩ :=
  (claim7_retry_amended [⟨0, 2, ['H', 'i'], true, none⟩] ruCode 0).2
    (Resp.ok ['z']) (Resp.ok ['z']) (Resp.err ['b', 'o', 'o', 'm']) []
    (by decide) (by decide) (by decide)

def c8seg : Seg :=
  { start := 0, stop := 2, text := ['H', 'i'], isTranslatable := true, translatedText := none }

def c8segHola : Seg :=
  { start := 0, stop := 2, text := ['H', 'i'], isTranslatable := true,
    translatedText := some ['H', 'o', 'l', 'a'] }

def c8segHi : Seg :=
  { start := 0, stop := 2, text := ['H', 'i'], isTranslatable := true,
    translatedText := some ['H', 'i'] }

/-- Claim C8 counterexample: a response line with index 0 present but with an
empty translated value.  The parsed map contains index 0 mapped to the empty
string, the chunk is accepted, yet the returned segment carries its original
text instead of the parsed (empty) translation, because
translatedMap.get(i) || seg.text falls back on any falsy value, including a
present empty string. -/
theorem claim8_counterexample :
    translateTextChunk [c8seg] esCode 0 [Resp.ok ['[', '0', ']', ' ']] =
      ⟨Except.ok [c8segHi], 1, []⟩ ∧
    parseResponse ['[', '0', ']', ' '] = [(0, [])] ∧
    ¬ (some ['H', 'i'] : Option (List Char)) = some [] := by
  refine ⟨by decide, by decide, by decide⟩

/-- Claim C8 (amended): when the Chunk Translator accepts a response, the
returned list has exactly the input's segments, offsets and order; a segment
whose index is missing from the parsed map, or parsed as the empty string,
is returned with its original text, and a segment whose index maps to a
non-empty parsed value is returned with that value. -/
theorem claim8_fallback_amended (segs : List Seg) (language : List Char) (chunkIndex : Nat)
    (rs : List Resp) (out : List Seg)
    (h : (translateTextChunk segs language chunkIndex rs).result = Except.ok out) :
    out.length = segs.length ∧
    ∃ text, Resp.ok text ∈ rs ∧
      ∀ (i : Nat) (hi : i < segs.length) (ho : i < out.length),
        out.get ⟨i, ho⟩ =
          { segs.get ⟨i, hi⟩ with
            translatedText := some
              (match (parseResponse text).lookup i with
               | some t => if t.isEmpty then (segs.get ⟨i, hi⟩).text else t
               | none => (segs.get ⟨i, hi⟩).text) } := by
  rcases translateChunkGo_ok 1 rs out h with ⟨text, hmem, hc, hs, hout⟩
  subst hout
  refine ⟨annotate_length segs _, text, hmem, ?_⟩
  intro i hi ho
  exact annotate_get segs _ i hi ho

theorem claim8_witness :
    (annotate [c8seg] (parseResponse ['[', '0', ']', ' ', 'H', 'o', 'l', 'a'])).get
        ⟨0, by decide⟩ = c8segHola := by
  have h := claim8_fallback_amended [c8seg] esCode 0
    [Resp.ok ['[', '0', ']', ' ', 'H', 'o', 'l', 'a']]
    (annotate [c8seg] (parseResponse ['[', '0', ']', ' ', 'H', 'o', 'l', 'a'])) rfl
  rcases h with ⟨hlen, text, hmem, hfield⟩
  have htext : Resp.ok text = Resp.ok ['[', '0', ']', ' ', 'H', 'o', 'l', 'a'] := by
    simpa using hmem
  cases htext
  have h0 := hfield 0 (by decide) (by decide)
  rw [h0]
  decide

/-! ### Orchestrator fast paths -/

/-- Claim C9: with the API key configured, translateHTML with target language
en returns the input unchanged and issues no generation request, for every
input and response script — hence on both the Direct path (length at most
15000) and the Chunked path (length above it) — and this is a success. -/
theorem claim9_noop_en (html : List Char) (directResponses : List Resp)
    (chunkScripts : List (List Resp)) :
    translateHTML true html enCode directResponses chunkScripts = ⟨Except.ok html, 0⟩ := by
  simp [translateHTML]

theorem takeWhile_replicate_pos {α : Type} (p : α → Bool) (a : α) (h : p a = true) :
    ∀ k : Nat, (List.replicate k a).takeWhile p = List.replicate k a := by
  intro k
  induction k with
  | zero => rfl
  | succ m ih => rw [List.replicate_succ, List.takeWhile_cons_of_pos h, ih]

theorem any_replicate_false {α : Type} (p : α → Bool) (a : α) (h : p a = false) :
    ∀ k : Nat, (List.replicate k a).any p = false := by
  intro k
  induction k with
  | zero => rfl
  | succ m ih => rw [List.replicate_succ]; simp [h, ih]

theorem extractTextSegments_replicate_space (n : Nat) :
    extractTextSegments (List.replicate n ' ') = [] := by
  unfold extractTextSegments
  cases n with
  | zero => simp [extractGo]
  | succ m =>
    have hlen : (List.replicate (m + 1) ' ').length + 1 = (m + 1) + 1 := by simp
    rw [hlen, List.replicate_succ]
    simp only [extractGo]
    rw [if_neg (by decide)]
    have hrun : (' ' :: List.replicate m ' ').takeWhile (fun x => !(x == '<')) =
        ' ' :: List.replicate m ' ' := by
      rw [← List.replicate_succ]
      exact takeWhile_replicate_pos _ _ (by decide) (m + 1)
    rw [hrun]
    have hany : (' ' :: List.replicate m ' ').any (fun x => !(jsSpace x)) = false := by
      rw [← List.replicate_succ]
      exact any_replicate_false _ _ (by decide) (m + 1)
    rw [hany]
    simp only [Bool.false_eq_true, if_false]
    rw [List.drop_length]
    exact extractGo_nil _ _

/-- Claim C10: for every input longer than 15000 characters from which the
extractor produces zero segments, translateHTML (with the key configured and
a non-en target) returns the input unchanged with zero generation requests
and without applying the structural or strict-script checks — so even for a
strict-script target the returned document is emitted as a success. -/
theorem claim10_empty_segments_passthrough (html : List Char) (language : List Char)
    (directResponses : List Resp) (chunkScripts : List (List Resp))
    (hlang : ¬ language = enCode) (hlen : 15000 < html.length)
    (hseg : extractTextSegments html = []) :
    translateHTML true html language directResponses chunkScripts = ⟨Except.ok html, 0⟩ := by
  simp only [translateHTML]
  rw [if_neg (by decide), if_neg hlang, if_neg (by omega), hseg]
  simp

theorem claim10_witness :
    translateHTML true (List.replicate 15001 ' ') ruCode [] [] =
      ⟨Except.ok (List.replicate 15001 ' '), 0⟩ ∧
    patternTest ruCode (List.replicate 15001 ' ') = false := by
  constructor
  · exact claim10_empty_segments_passthrough (List.replicate 15001 ' ') ruCode [] []
      (by decide) (by rw [List.length_replicate]; omega) (extractTextSegments_replicate_space 15001)
  · simp only [patternTest, languagePattern, if_pos rfl]
    exact any_replicate_false _ _ (by decide) 15001

/-! ### Pointwise evaluation helpers for the scanner -/

theorem matchContainer_none_of_second {c : Char} (cs : List Char)
    (h1 : ¬ c.toLower = 's') (h2 : ¬ c.toLower = 'c') (h3 : ¬ c.toLower = 'p') :
    matchContainer ('<' :: c :: cs) = none := by
  have e1 : (c.toLower == 's') = false := by simp [h1]
  have e2 : (c.toLower == 'c') = false := by simp [h2]
  have e3 : (c.toLower == 'p') = false := by simp [h3]
  have hf : containerNames.find? (fun nm => isPrefixCI nm (c :: cs)) = none := by
    simp [containerNames, List.find?, scriptChars, styleChars, codeChars, preChars,
      isPrefixCI, e1, e2, e3]
  simp [matchContainer, hf]

theorem matchTag_open (w t : List Char) (hw : ∀ a ∈ w, (!(a == '>')) = true) (hne : ¬ w = []) :
    matchTag ('<' :: (w ++ '>' :: t)) = some (w.length + 2) := by
  have hlen : ¬ (w.length = 0) := fun h0 => hne (List.length_eq_zero.1 h0)
  have hrun : (w ++ '>' :: t).takeWhile (fun x => !(x == '>')) = w := by
    rw [List.takeWhile_append_of_pos hw, List.takeWhile_cons_of_neg (by decide)]
    simp
  have hdrop : (w ++ '>' :: t).drop w.length = '>' :: t := List.drop_left' rfl
  simp only [matchTag, hrun, hdrop, if_neg hlen]
  simp

theorem matchContainer_script (attrs rest : List Char)
    (hattrs : ∀ a ∈ attrs, (!(a == '>')) = true) :
    matchContainer ('<' :: 's' :: 'c' :: 'r' :: 'i' :: 'p' :: 't' :: (attrs ++ '>' :: rest)) =
      match findSubCI (closeTag scriptChars) rest with
      | some j => some (attrs.length + 8 + j + 9)
      | none => none := by
  have hf : containerNames.find?
      (fun nm => isPrefixCI nm ('s' :: 'c' :: 'r' :: 'i' :: 'p' :: 't' :: (attrs ++ '>' :: rest))) =
      some scriptChars := rfl
  have hafter : ('s' :: 'c' :: 'r' :: 'i' :: 'p' :: 't' :: (attrs ++ '>' :: rest) :
      List Char).drop scriptChars.length = attrs ++ '>' :: rest := rfl
  have hattrs2 : (attrs ++ '>' :: rest).takeWhile (fun x => !(x == '>')) = attrs := by
    rw [List.takeWhile_append_of_pos hattrs, List.takeWhile_cons_of_neg (by decide)]
    simp
  have hdrop2 : (attrs ++ '>' :: rest).drop attrs.length = '>' :: rest := List.drop_left' rfl
  simp only [matchContainer, if_pos rfl, hf, hafter, hattrs2, hdrop2]
  cases findSubCI (closeTag scriptChars) rest with
  | none => rfl
  | some j =>
    simp only [scriptChars, List.length_cons, List.length_nil]
    norm_num
    omega

theorem extractGo_block_step (f pos : Nat) (c : Char) (rest : List Char) (k : Nat)
    (hc : c = '<') (hmc : matchContainer (c :: rest) = some k) :
    extractGo (f + 1) pos (c :: rest) = extractGo f (pos + k) ((c :: rest).drop k) := by
  simp only [extractGo, if_pos hc, hmc]

theorem extractGo_tag_step (f pos : Nat) (c : Char) (rest : List Char) (k : Nat)
    (hc : c = '<') (hmc : matchContainer (c :: rest) = none) (hmt : matchTag (c :: rest) = some k) :
    extractGo (f + 1) pos (c :: rest) = extractGo f (pos + k) ((c :: rest).drop k) := by
  simp only [extractGo, if_pos hc, hmc, hmt]

theorem extractGo_skip_step (f pos : Nat) (c : Char) (rest : List Char)
    (hc : c = '<') (hmc : matchContainer (c :: rest) = none) (hmt : matchTag (c :: rest) = none) :
    extractGo (f + 1) pos (c :: rest) = extractGo f (pos + 1) rest := by
  simp only [extractGo, if_pos hc, hmc, hmt]

theorem extractGo_text_step (f pos : Nat) (c : Char) (rest : List Char) (hc : ¬ c = '<')
    (ha : ((c :: rest).takeWhile (fun x => !(x == '<'))).any (fun x => !(jsSpace x)) = true) :
    extractGo (f + 1) pos (c :: rest) =
      { start := pos, stop := pos + ((c :: rest).takeWhile (fun x => !(x == '<'))).length,
        text := (c :: rest).takeWhile (fun x => !(x == '<')), isTranslatable := true,
        translatedText := none } ::
        extractGo f (pos + ((c :: rest).takeWhile (fun x => !(x == '<'))).length)
          ((c :: rest).drop ((c :: rest).takeWhile (fun x => !(x == '<'))).length) := by
  simp only [extractGo, if_neg hc, ha, if_pos]

theorem extractGo_text_skip_step (f pos : Nat) (c : Char) (rest : List Char) (hc : ¬ c = '<')
    (ha : ((c :: rest).takeWhile (fun x => !(x == '<'))).any (fun x => !(jsSpace x)) = false) :
    extractGo (f + 1) pos (c :: rest) =
      extractGo f (pos + ((c :: rest).takeWhile (fun x => !(x == '<'))).length)
        ((c :: rest).drop ((c :: rest).takeWhile (fun x => !(x == '<'))).length) := by
  simp only [extractGo, if_neg hc, ha, Bool.false_eq_true, if_false]

/-- Offsets translate: scanning from a shifted position shifts every segment
by the same amount. -/
def shiftSeg (d : Nat) (s : Seg) : Seg :=
  { s with start := s.start + d, stop := s.stop + d }

theorem extractGo_shift : ∀ (f pos d : Nat) (s : List Char),
    extractGo f (pos + d) s = (extractGo f pos s).map (shiftSeg d) := by
  intro f
  induction f with
  | zero => intro pos d s; simp [extractGo]
  | succ g ih =>
    intro pos d s
    cases s with
    | nil => simp [extractGo]
    | cons c rest =>
      by_cases hc : c = '<'
      · cases hmc : matchContainer (c :: rest) with
        | some k =>
          rw [extractGo_block_step g (pos + d) c rest k hc hmc,
            extractGo_block_step g pos c rest k hc hmc]
          have harith : pos + d + k = pos + k + d := by omega
          rw [harith, ih]
        | none =>
          cases hmt : matchTag (c :: rest) with
          | some k =>
            rw [extractGo_tag_step g (pos + d) c rest k hc hmc hmt,
              extractGo_tag_step g pos c rest k hc hmc hmt]
            have harith : pos + d + k = pos + k + d := by omega
            rw [harith, ih]
          | none =>
            rw [extractGo_skip_step g (pos + d) c rest hc hmc hmt,
              extractGo_skip_step g pos c rest hc hmc hmt]
            have harith : pos + d + 1 = pos + 1 + d := by omega
            rw [harith, ih]
      · by_cases ha : ((c :: rest).takeWhile (fun x => !(x == '<'))).any
            (fun x => !(jsSpace x)) = true
        · rw [extractGo_text_step g (pos + d) c rest hc ha,
            extractGo_text_step g pos c rest hc ha]
          have harith : pos + d + ((c :: rest).takeWhile (fun x => !(x == '<'))).length =
              pos + ((c :: rest).takeWhile (fun x => !(x == '<'))).length + d := by omega
          rw [harith, ih, List.map_cons]
          rfl
        · rw [Bool.not_eq_true] at ha
          rw [extractGo_text_skip_step g (pos + d) c rest hc ha,
            extractGo_text_skip_step g pos c rest hc ha]
          have harith : pos + d + ((c :: rest).takeWhile (fun x => !(x == '<'))).length =
              pos + ((c :: rest).takeWhile (fun x => !(x == '<'))).length + d := by omega
          rw [harith, ih]

/-- Claim C5 counterexample: on an unclosed script element the regex
backtracks to the plain-tag alternative, so the text after the unmatched
opening tag IS extracted as a segment (the scan does not consume to end of
document). -/
theorem claim5_counterexample :
    extractTextSegments ['<', 's', 'c', 'r', 'i', 'p', 't', '>', 'H', 'o', 'l', 'a'] =
      [{ start := 8, stop := 12, text := ['H', 'o', 'l', 'a'], isTranslatable := true,
         translatedText := none }] ∧
    findSubCI (closeTag scriptChars)
      (['<', 's', 'c', 'r', 'i', 'p', 't', '>', 'H', 'o', 'l', 'a'].drop 8) = none ∧
    (['<', 's', 'c', 'r', 'i', 'p', 't', '>', 'H', 'o', 'l', 'a'].take 8 : List Char) =
      ['<', 's', 'c', 'r', 'i', 'p', 't', '>'] := by
  refine ⟨by decide, by decide, by decide⟩

/-- Any container name paired with a non-gt attribute run and an unclosed
remainder: the container alternative of the regex fails (no closing tag to
satisfy the lazy search), and the plain-tag alternative matches exactly the
opening tag. -/
theorem unclosed_container_facts (nm attrs rest : List Char)
    (hnm : ∀ a ∈ nm, (!(a == '>')) = true) (hne : ¬ nm = [])
    (hf : containerNames.find? (fun x => isPrefixCI x (nm ++ (attrs ++ '>' :: rest))) = some nm)
    (hafter : (nm ++ (attrs ++ '>' :: rest)).drop nm.length = attrs ++ '>' :: rest)
    (hattrs : ∀ a ∈ attrs, (!(a == '>')) = true)
    (hclose : findSubCI (closeTag nm) rest = none) :
    matchContainer ('<' :: (nm ++ (attrs ++ '>' :: rest))) = none ∧
    matchTag ('<' :: (nm ++ (attrs ++ '>' :: rest))) = some (nm.length + attrs.length + 2) := by
  constructor
  · have hattrs2 : (attrs ++ '>' :: rest).takeWhile (fun x => !(x == '>')) = attrs := by
      rw [List.takeWhile_append_of_pos hattrs, List.takeWhile_cons_of_neg (by decide)]
      simp
    have hdrop2 : (attrs ++ '>' :: rest).drop attrs.length = '>' :: rest := List.drop_left' rfl
    simp only [matchContainer, if_pos rfl, hf, hafter, hattrs2, hdrop2, hclose]
    simp
  · have hw : ∀ a ∈ nm ++ attrs, (!(a == '>')) = true := by
      intro a ha
      rcases List.mem_append.1 ha with h1 | h2
      · exact hnm a h1
      · exact hattrs a h2
    have hne2 : ¬ (nm ++ attrs) = [] := by
      intro h0
      exact hne (List.append_eq_nil.1 h0).1
    have h0 := matchTag_open (nm ++ attrs) rest hw hne2
    rw [List.append_assoc] at h0
    rw [h0]
    simp [List.length_append]

/-- One scanner step at any position and fuel: an unclosed container opening
tag is consumed as an ordinary tag and the scan resumes right after it. -/
theorem unclosed_container_scan (nm attrs rest : List Char) (f pos : Nat)
    (hmc : matchContainer ('<' :: (nm ++ (attrs ++ '>' :: rest))) = none)
    (hmt : matchTag ('<' :: (nm ++ (attrs ++ '>' :: rest))) =
      some (nm.length + attrs.length + 2)) :
    extractGo (f + 1) pos ('<' :: (nm ++ (attrs ++ '>' :: rest))) =
      extractGo f (pos + (nm.length + attrs.length + 2)) rest := by
  rw [extractGo_tag_step f pos '<' (nm ++ (attrs ++ '>' :: rest))
    (nm.length + attrs.length + 2) rfl hmc hmt]
  congr 1
  have hshape : ('<' :: (nm ++ (attrs ++ '>' :: rest)) : List Char) =
      ('<' :: (nm ++ (attrs ++ ['>']))) ++ rest := by simp
  rw [hshape]
  refine List.drop_left' ?_
  simp only [List.length_cons, List.length_append, List.length_nil]
  omega

theorem unclosed_container_extract (nm attrs rest : List Char)
    (hmc : matchContainer ('<' :: (nm ++ (attrs ++ '>' :: rest))) = none)
    (hmt : matchTag ('<' :: (nm ++ (attrs ++ '>' :: rest))) =
      some (nm.length + attrs.length + 2)) :
    extractTextSegments ('<' :: (nm ++ (attrs ++ '>' :: rest))) =
      (extractTextSegments rest).map (shiftSeg (nm.length + attrs.length + 2)) := by
  unfold extractTextSegments
  have hlen : ('<' :: (nm ++ (attrs ++ '>' :: rest)) : List Char).length =
      nm.length + attrs.length + rest.length + 2 := by
    simp only [List.length_cons, List.length_append]
    omega
  rw [hlen]
  rw [unclosed_container_scan nm attrs rest (nm.length + attrs.length + rest.length + 2)
    0 hmc hmt]
  rw [extractGo_shift (nm.length + attrs.length + rest.length + 2) 0
    (nm.length + attrs.length + 2) rest]
  congr 1
  exact extractGo_fuel _ _ 0 rest (by omega) (by omega)

/-- Claim C5 (amended): a container opening tag — script, style, code or
pre — with no matching closing tag anywhere after it is matched by the
second regex alternative as an ordinary tag wherever the scan encounters it
(the step equation holds at every scanner position and fuel, i.e. after any
prefix of the document the scan has already consumed): the container
alternative fails, the tag alternative matches exactly the opening tag, and
scanning resumes immediately after it, so the text of the remainder is
still extracted — shifted by the tag length when the document consists of
the unclosed tag followed by the remainder — rather than the element
consuming to end of document. -/
theorem claim5_unclosed_tag_amended (nm : List Char) (hm : nm ∈ containerNames)
    (attrs rest : List Char) (f pos : Nat)
    (hattrs : ∀ a ∈ attrs, (!(a == '>')) = true)
    (hclose : findSubCI (closeTag nm) rest = none) :
    matchContainer ('<' :: (nm ++ (attrs ++ '>' :: rest))) = none ∧
    matchTag ('<' :: (nm ++ (attrs ++ '>' :: rest))) = some (nm.length + attrs.length + 2) ∧
    extractGo (f + 1) pos ('<' :: (nm ++ (attrs ++ '>' :: rest))) =
      extractGo f (pos + (nm.length + attrs.length + 2)) rest ∧
    extractTextSegments ('<' :: (nm ++ (attrs ++ '>' :: rest))) =
      (extractTextSegments rest).map (shiftSeg (nm.length + attrs.length + 2)) := by
  have hfm : (∀ a ∈ nm, (!(a == '>')) = true) ∧ ¬ nm = [] ∧
      containerNames.find? (fun x => isPrefixCI x (nm ++ (attrs ++ '>' :: rest))) = some nm ∧
      (nm ++ (attrs ++ '>' :: rest)).drop nm.length = attrs ++ '>' :: rest := by
    fin_cases hm
    · exact ⟨by decide, by decide, rfl, rfl⟩
    · exact ⟨by decide, by decide, rfl, rfl⟩
    · exact ⟨by decide, by decide, rfl, rfl⟩
    · exact ⟨by decide, by decide, rfl, rfl⟩
  obtain ⟨hnm, hne, hf2, hafter⟩ := hfm
  obtain ⟨hmc, hmt⟩ := unclosed_container_facts nm attrs rest hnm hne hf2 hafter hattrs hclose
  exact ⟨hmc, hmt, unclosed_container_scan nm attrs rest f pos hmc hmt,
    unclosed_container_extract nm attrs rest hmc hmt⟩

theorem claim5_witness :
    extractTextSegments ['<', 's', 'c', 'r', 'i', 'p', 't', '>', 'H', 'o', 'l', 'a'] =
      (extractTextSegments ['H', 'o', 'l', 'a']).map (shiftSeg 8) := by
  have h := (claim5_unclosed_tag_amended scriptChars (by decide) [] ['H', 'o', 'l', 'a'] 0 0
    (by simp) (by decide)).2.2.2
  exact h

/-! ### Container blocks are disjoint from extracted segments -/

theorem scanBlocksGo_lb : ∀ (f pos : Nat) (s : List Char),
    ∀ b ∈ scanBlocksGo f pos s, pos ≤ b.1 ∧
      matchContainer (s.drop (b.1 - pos)) = some (b.2 - b.1) := by
  intro f
  induction f with
  | zero => intro pos s b hb; simp [scanBlocksGo] at hb
  | succ g ih =>
    intro pos s b hb
    cases s with
    | nil => simp [scanBlocksGo] at hb
    | cons c rest =>
      simp only [scanBlocksGo] at hb
      by_cases hc : c = '<'
      · rw [if_pos hc] at hb
        cases hmc : matchContainer (c :: rest) with
        | some k =>
          rw [hmc] at hb
          rcases List.mem_cons.1 hb with rfl | hb2
          · refine ⟨Nat.le_refl _, ?_⟩
            simpa using hmc
          · have := ih (pos + k) ((c :: rest).drop k) b hb2
            refine ⟨by omega, ?_⟩
            rw [List.drop_drop] at this
            have harith : k + (b.1 - (pos + k)) = b.1 - pos := by omega
            rw [harith] at this
            exact this.2
        | none =>
          rw [hmc] at hb
          cases hmt : matchTag (c :: rest) with
          | some k =>
            rw [hmt] at hb
            have := ih (pos + k) ((c :: rest).drop k) b hb
            refine ⟨by omega, ?_⟩
            rw [List.drop_drop] at this
            have harith : k + (b.1 - (pos + k)) = b.1 - pos := by omega
            rw [harith] at this
            exact this.2
          | none =>
            rw [hmt] at hb
            have := ih (pos + 1) rest b hb
            refine ⟨by omega, ?_⟩
            have hdrop1 : rest = (c :: rest).drop 1 := rfl
            rw [hdrop1, List.drop_drop] at this
            have harith : 1 + (b.1 - (pos + 1)) = b.1 - pos := by omega
            rw [harith] at this
            exact this.2
      · rw [if_neg hc] at hb
        have := ih (pos + ((c :: rest).takeWhile (fun x => !(x == '<'))).length)
          ((c :: rest).drop ((c :: rest).takeWhile (fun x => !(x == '<'))).length) b hb
        have hr := length_pos_of_head_ne_lt (l := rest) hc
        refine ⟨by omega, ?_⟩
        rw [List.drop_drop] at this
        have harith : ((c :: rest).takeWhile (fun x => !(x == '<'))).length +
            (b.1 - (pos + ((c :: rest).takeWhile (fun x => !(x == '<'))).length)) =
            b.1 - pos := by omega
        rw [harith] at this
        exact this.2

theorem blocks_segs_disjoint : ∀ (f pos : Nat) (s : List Char),
    ∀ b ∈ scanBlocksGo f pos s, ∀ seg ∈ extractGo f pos s,
      seg.stop ≤ b.1 ∨ b.2 ≤ seg.start := by
  intro f
  induction f with
  | zero => intro pos s b hb; simp [scanBlocksGo] at hb
  | succ g ih =>
    intro pos s b hb seg hseg
    cases s with
    | nil => simp [scanBlocksGo] at hb
    | cons c rest =>
      simp only [scanBlocksGo] at hb
      simp only [extractGo] at hseg
      by_cases hc : c = '<'
      · rw [if_pos hc] at hb hseg
        cases hmc : matchContainer (c :: rest) with
        | some k =>
          rw [hmc] at hb hseg
          rcases List.mem_cons.1 hb with rfl | hb2
          · right
            exact (GoodFrom_mem (extractGo_good g (pos + k) ((c :: rest).drop k)) seg hseg).1
          · exact ih (pos + k) ((c :: rest).drop k) b hb2 seg hseg
        | none =>
          rw [hmc] at hb hseg
          cases hmt : matchTag (c :: rest) with
          | some k =>
            rw [hmt] at hb hseg
            exact ih (pos + k) ((c :: rest).drop k) b hb seg hseg
          | none =>
            rw [hmt] at hb hseg
            exact ih (pos + 1) rest b hb seg hseg
      · rw [if_neg hc] at hb hseg
        by_cases ha : ((c :: rest).takeWhile (fun x => !(x == '<'))).any
            (fun x => !(jsSpace x)) = true
        · rw [ha] at hseg
          rw [if_pos rfl] at hseg
          rcases List.mem_cons.1 hseg with rfl | hseg2
          · left
            have := (scanBlocksGo_lb g
              (pos + ((c :: rest).takeWhile (fun x => !(x == '<'))).length)
              ((c :: rest).drop ((c :: rest).takeWhile (fun x => !(x == '<'))).length) b hb).1
            dsimp only
            omega
          · exact ih _ _ b hb seg hseg2
        · rw [Bool.not_eq_true] at ha
          rw [ha] at hseg
          simp only [Bool.false_eq_true, if_false] at hseg
          exact ih _ _ b hb seg hseg

/-- Claim C3 counterexample: in the document
pre-open script-open pre-close Hola script-close, the script element opened
at offset 5 has its matching close at offset 23 (its content, offsets 13 to
23, contains no script close tag), yet the text Hola inside that content
region is extracted as a segment: the scan first consumes the pre block
(offsets 0 to 19, up to the first pre close tag), swallowing the script
opening tag, and then treats Hola as top-level text. -/
theorem claim3_counterexample :
    extractTextSegments
        ['<', 'p', 'r', 'e', '>', '<', 's', 'c', 'r', 'i', 'p', 't', '>', '<', '/', 'p', 'r',
         'e', '>', 'H', 'o', 'l', 'a', '<', '/', 's', 'c', 'r', 'i', 'p', 't', '>'] =
      [{ start := 19, stop := 23, text := ['H', 'o', 'l', 'a'], isTranslatable := true,
         translatedText := none }] ∧
    (['<', 'p', 'r', 'e', '>', '<', 's', 'c', 'r', 'i', 'p', 't', '>', '<', '/', 'p', 'r',
      'e', '>', 'H', 'o', 'l', 'a', '<', '/', 's', 'c', 'r', 'i', 'p', 't', '>'].drop 5).take 8 =
      ['<', 's', 'c', 'r', 'i', 'p', 't', '>'] ∧
    findSubCI (closeTag scriptChars)
      ((['<', 'p', 'r', 'e', '>', '<', 's', 'c', 'r', 'i', 'p', 't', '>', '<', '/', 'p', 'r',
         'e', '>', 'H', 'o', 'l', 'a', '<', '/', 's', 'c', 'r', 'i', 'p', 't', '>'].drop 13).take
        10) = none ∧
    (['<', 'p', 'r', 'e', '>', '<', 's', 'c', 'r', 'i', 'p', 't', '>', '<', '/', 'p', 'r',
      'e', '>', 'H', 'o', 'l', 'a', '<', '/', 's', 'c', 'r', 'i', 'p', 't', '>'].drop 23).take
      9 = closeTag scriptChars ∧
    13 ≤ 19 ∧ 23 ≤ 23 := by
  refine ⟨by decide, by decide, by decide, by decide, by decide, by decide⟩

/-- Claim C3 (amended): every container block the scanner recognizes — a
region where the container alternative of the regex matched, from a
container opening tag to its first matching closing tag — is disjoint from
every extracted segment, so text inside a recognized script, style, code or
pre block is never present in any segment.  (As the counterexample shows,
text inside a container element whose opening tag was swallowed by an
earlier overlapping container block can still be extracted.) -/
theorem claim3_blocks_disjoint_amended (html : List Char) :
    ∀ b ∈ scanBlocks html,
      matchContainer (html.drop b.1) = some (b.2 - b.1) ∧
      ∀ seg ∈ extractTextSegments html, seg.stop ≤ b.1 ∨ b.2 ≤ seg.start := by
  intro b hb
  constructor
  · have := (scanBlocksGo_lb (html.length + 1) 0 html b hb).2
    simpa using this
  · intro seg hseg
    exact blocks_segs_disjoint (html.length + 1) 0 html b hb seg hseg

def c3wseg : Seg :=
  { start := 3, stop := 5, text := ['H', 'i'], isTranslatable := true, translatedText := none }

def c3whtml : List Char :=
  ['<', 'p', '>', 'H', 'i', '<', 's', 'c', 'r', 'i', 'p', 't', '>', 'v',
   'a', 'r', '<', '/', 's', 'c', 'r', 'i', 'p', 't', '>']

theorem claim3_witness :
    matchContainer (c3whtml.drop 5) = some 20 ∧ ((5 : Nat) ≤ 5 ∨ (25 : Nat) ≤ 3) := by
  have h := claim3_blocks_disjoint_amended c3whtml (5, 25) (by decide)
  refine ⟨by simpa using h.1, ?_⟩
  have h2 := h.2 c3wseg (by decide)
  simp only [c3wseg] at h2
  exact h2

/-! ### The chunked path applies only two of the three validation checks -/

def c6html : List Char :=
  '<' :: 'h' :: 't' :: 'm' :: 'l' :: '>' ::
    (List.replicate 15000 'a' ++ ['<', '/', 'h', 't', 'm', 'l', '>'])

def c6seg : Seg :=
  { start := 6, stop := 15006, text := List.replicate 15000 'a', isTranslatable := true,
    translatedText := none }

def c6tseg : Seg :=
  { start := 6, stop := 15006, text := List.replicate 15000 'a', isTranslatable := true,
    translatedText := some ['я'] }

def c6resp : List Char := ['[', '0', ']', ' ', 'я']

def c6out : List Char := ['<', 'h', 't', 'm', 'l', '>', 'я', '<', '/', 'h', 't', 'm', 'l', '>']

theorem c6html_length : c6html.length = 15013 := by
  simp only [c6html, List.length_cons, List.length_append, List.length_replicate,
    List.length_nil]

theorem c6_extract : extractTextSegments c6html = [c6seg] := by
  unfold extractTextSegments
  rw [c6html_length]
  have hmc1 : matchContainer ('<' :: 'h' :: 't' :: 'm' :: 'l' :: '>' ::
      (List.replicate 15000 'a' ++ ['<', '/', 'h', 't', 'm', 'l', '>'])) = none :=
    matchContainer_none_of_second _ (by decide) (by decide) (by decide)
  have hmt1 : matchTag ('<' :: 'h' :: 't' :: 'm' :: 'l' :: '>' ::
      (List.replicate 15000 'a' ++ ['<', '/', 'h', 't', 'm', 'l', '>'])) = some 6 :=
    matchTag_open ['h', 't', 'm', 'l']
      (List.replicate 15000 'a' ++ ['<', '/', 'h', 't', 'm', 'l', '>'])
      (by decide) (by decide)
  rw [show c6html = '<' :: 'h' :: 't' :: 'm' :: 'l' :: '>' ::
      (List.replicate 15000 'a' ++ ['<', '/', 'h', 't', 'm', 'l', '>']) from rfl]
  rw [extractGo_tag_step 15013 0 '<'
    ('h' :: 't' :: 'm' :: 'l' :: '>' ::
      (List.replicate 15000 'a' ++ ['<', '/', 'h', 't', 'm', 'l', '>'])) 6 rfl hmc1 hmt1]
  rw [show (('<' :: 'h' :: 't' :: 'm' :: 'l' :: '>' ::
      (List.replicate 15000 'a' ++ ['<', '/', 'h', 't', 'm', 'l', '>'])) : List Char).drop 6 =
      List.replicate 15000 'a' ++ ['<', '/', 'h', 't', 'm', 'l', '>'] from rfl]
  have hsplit : List.replicate 15000 'a' ++ (['<', '/', 'h', 't', 'm', 'l', '>'] : List Char) =
      'a' :: (List.replicate 14999 'a' ++ ['<', '/', 'h', 't', 'm', 'l', '>']) := by
    rw [show (15000 : Nat) = 14999 + 1 from by norm_num, List.replicate_succ, List.cons_append]
  rw [hsplit]
  have hrun : (('a' :: (List.replicate 14999 'a' ++ ['<', '/', 'h', 't', 'm', 'l', '>'])) :
      List Char).takeWhile (fun x => !(x == '<')) = List.replicate 15000 'a' := by
    rw [← hsplit, List.takeWhile_append_of_pos]
    · rw [List.takeWhile_cons_of_neg (by decide), List.append_nil]
    · intro a ha
      rw [List.eq_of_mem_replicate ha]
      decide
  have hany : ((('a' :: (List.replicate 14999 'a' ++ ['<', '/', 'h', 't', 'm', 'l', '>'])) :
      List Char).takeWhile (fun x => !(x == '<'))).any (fun x => !(jsSpace x)) = true := by
    rw [hrun]
    rw [show (15000 : Nat) = 14999 + 1 from by norm_num, List.replicate_succ, List.any_cons]
    rw [show (!(jsSpace 'a')) = true from by decide, Bool.true_or]
  rw [show (15013 : Nat) = 15012 + 1 from by norm_num]
  rw [extractGo_text_step 15012 (0 + 6) 'a'
    (List.replicate 14999 'a' ++ ['<', '/', 'h', 't', 'm', 'l', '>']) (by decide) hany]
  rw [hrun, List.length_replicate]
  rw [show (('a' :: (List.replicate 14999 'a' ++ ['<', '/', 'h', 't', 'm', 'l', '>'])) :
      List Char).drop 15000 = ['<', '/', 'h', 't', 'm', 'l', '>'] from by
    rw [← hsplit]
    exact List.drop_left' (List.length_replicate 15000 'a')]
  have hmc2 : matchContainer (['<', '/', 'h', 't', 'm', 'l', '>'] : List Char) = none :=
    matchContainer_none_of_second _ (by decide) (by decide) (by decide)
  have hmt2 : matchTag (['<', '/', 'h', 't', 'm', 'l', '>'] : List Char) = some 7 :=
    matchTag_open ['/', 'h', 't', 'm', 'l'] [] (by decide) (by decide)
  rw [show (15012 : Nat) = 15011 + 1 from by norm_num]
  rw [extractGo_tag_step 15011 (0 + 6 + 15000) '<' ['/', 'h', 't', 'm', 'l', '>'] 7 rfl hmc2 hmt2]
  rw [show ((['<', '/', 'h', 't', 'm', 'l', '>'] : List Char)).drop 7 = [] from rfl]
  rw [extractGo_nil]
  rw [show (0 + 6 : Nat) = 6 from rfl]
  rfl

theorem c6_chunks : createTextChunks [c6seg] 4000 = [[c6seg]] := by
  simp only [createTextChunks, chunksGo]
  rw [if_neg (by simp)]
  simp only [chunksGo, List.nil_append]
  rw [if_pos (by simp)]

theorem c6_parse : parseResponse c6resp = [(0, ['я'])] := by decide

theorem c6_chunkrun : translateChunkGo [c6seg] ruCode 0 1 [Resp.ok c6resp] =
    ⟨Except.ok [c6tseg], 1, []⟩ := by
  simp only [translateChunkGo]
  rw [if_neg (by norm_num), c6_parse]
  rw [if_neg (by decide), if_neg (by decide)]
  rfl

theorem c6_chunksrun :
    translateChunksGo ruCode [[c6seg]] 0 [[Resp.ok c6resp]] = (Except.ok [c6tseg], 1) := by
  simp only [translateChunksGo]
  rw [show ([[Resp.ok c6resp]] : List (List Resp)).headD [] = [Resp.ok c6resp] from rfl]
  rw [c6_chunkrun]
  rfl

theorem c6_reassemble : reassembleHTML c6html [c6tseg] = c6out := by
  unfold reassembleHTML
  rw [show List.insertionSort (fun a b => b.start ≤ a.start) [c6tseg] = [c6tseg] from rfl]
  rw [List.foldl_cons, List.foldl_nil]
  rw [show replaceStep c6html c6tseg =
      c6html.take 6 ++ ['я'] ++ c6html.drop 15006 from rfl]
  rw [show c6html = ('<' :: 'h' :: 't' :: 'm' :: 'l' :: '>' :: List.replicate 15000 'a') ++
      ['<', '/', 'h', 't', 'm', 'l', '>'] from rfl]
  rw [List.drop_left' (by
    simp only [List.length_cons, List.length_replicate])]
  rw [take_append_left _ (by simp only [List.length_cons, List.length_replicate]; omega)]
  rw [show (('<' :: 'h' :: 't' :: 'm' :: 'l' :: '>' :: List.replicate 15000 'a') :
      List Char).take 6 = ['<', 'h', 't', 'm', 'l', '>'] from by
    rw [show ('<' :: 'h' :: 't' :: 'm' :: 'l' :: '>' :: List.replicate 15000 'a' : List Char) =
        ['<', 'h', 't', 'm', 'l', '>'] ++ List.replicate 15000 'a' from rfl]
    exact List.take_left' rfl]
  rfl

theorem c6_pipeline :
    translateHTML true c6html ruCode [] [[Resp.ok c6resp]] = ⟨Except.ok c6out, 1⟩ := by
  unfold translateHTML
  rw [if_neg (by decide), if_neg (by decide), if_neg (by rw [c6html_length]; omega)]
  rw [c6_extract]
  rw [if_neg (by simp)]
  rw [c6_chunks, c6_chunksrun]
  dsimp only
  rw [c6_reassemble]
  rw [if_neg (by rw [show hasHTML c6out = true from by decide]; decide)]
  rw [if_pos (show ruCode ∈ strictLanguages from by decide)]
  rw [if_pos (show patternTest ruCode c6out = true from by decide)]

/-- Claim C6 counterexample: a full chunked run whose reassembled document is
14 characters long.  It passes the two checks the chunked path actually
applies (HTML structure and strict-script characters) and is returned as a
success, yet it fails the 200-character floor of the ValidationResult checks
(isValidTranslation returns false): the chunked path never applies check (b). -/
theorem claim6_counterexample :
    translateHTML true c6html ruCode [] [[Resp.ok c6resp]] = ⟨Except.ok c6out, 1⟩ ∧
    isValidTranslation c6out ruCode c6html = false ∧ c6out.length < 200 ∧
    hasHTML c6out = true ∧ patternTest ruCode c6out = true := by
  refine ⟨c6_pipeline, by decide, by decide, by decide, by decide⟩

/-- Claim C6 (amended): after full reassembly in the chunked path (non-en
language, length above the threshold, at least one extracted segment), a
returned document always satisfies the HTML-structure check and, for
strict-script languages, the character-pattern check — but only those two:
the 200-character floor of the ValidationResult checks is not applied, as
the counterexample shows. -/
theorem claim6_chunked_validation_amended (html language : List Char)
    (dr : List Resp) (cs : List (List Resp)) (out : List Char) (reqs : Nat)
    (hlang : ¬ language = enCode) (hlen : 15000 < html.length)
    (hseg : ¬ extractTextSegments html = [])
    (h : translateHTML true html language dr cs = ⟨Except.ok out, reqs⟩) :
    hasHTML out = true ∧ (language ∈ strictLanguages → patternTest language out = true) := by
  unfold translateHTML at h
  rw [if_neg (by decide), if_neg hlang, if_neg (by omega)] at h
  rw [if_neg (fun h0 => hseg (List.length_eq_zero.1 h0))] at h
  split at h
  · exact absurd (congrArg RunOutcome.result h) (by simp)
  · rename_i allSegs2 reqs3 hpair
    split at h
    · exact absurd (congrArg RunOutcome.result h) (by simp)
    · rename_i hhtml2
      have hH : hasHTML (reassembleHTML html allSegs2) = true := by
        simpa using hhtml2
      split at h
      · rename_i hstrict
        split at h
        · rename_i hpat
          have hout : reassembleHTML html allSegs2 = out := by
            have h2 := congrArg RunOutcome.result h
            simpa using h2
          rw [← hout]
          exact ⟨hH, fun _ => hpat⟩
        · exact absurd (congrArg RunOutcome.result h) (by simp)
      · rename_i hstrict
        have hout : reassembleHTML html allSegs2 = out := by
          have h2 := congrArg RunOutcome.result h
          simpa using h2
        rw [← hout]
        exact ⟨hH, fun hmem => absurd hmem hstrict⟩

theorem claim6_witness : hasHTML c6out = true ∧
    (ruCode ∈ strictLanguages → patternTest ruCode c6out = true) :=
  claim6_chunked_validation_amended c6html ruCode [] [[Resp.ok c6resp]] c6out 1
    (by decide) (by rw [c6html_length]; omega) (by rw [c6_extract]; simp) c6_pipeline
